import Mathlib

/-!
# Verification of the zkSNARK reporting system's Poseidon core

Shallow embedding of the repository's Poseidon hashing core:

* `src/src/hash.rs` — `get_poseidon_config`, `PoseidonHash` (native sponge
  wrapper) and `PoseidonHashVar` (R1CS gadget wrapper);
* `src/src/circuit.rs` — `PoseidonCircuit::generate_constraints`;
* the sponge algorithm those wrappers drive, which lives in the
  `ark-crypto-primitives` dependency (`sponge/poseidon/mod.rs` for
  `PoseidonSponge` and `sponge/poseidon/constraints.rs` for
  `PoseidonSpongeVar`).  The wrapper code in `src/` calls straight into that
  implementation, so its absorb/squeeze/permute routines are translated here
  verbatim (loops become structural recursions).

Machine integers (`usize`, `u64`) are modelled as `Nat`; field elements are an
abstract commutative ring `F` (instantiated with `ZMod 5` in concrete
witnesses).  Rust slice indexing that would panic on a mis-sized round-constant
or MDS table is modelled with `List.getD`; the spec (§7) treats a mis-sized
table as an unreachable invariant violation and no claim depends on that case.
-/

namespace ZkReport

/-- Duplex sponge mode, from `ark_crypto_primitives::sponge::DuplexSpongeMode`:
either absorbing (with the next state index to absorb into) or squeezing (with
the next state index to squeeze from). -/
inductive DuplexSpongeMode where
  | absorbing (next_absorb_index : Nat)
  | squeezing (next_squeeze_index : Nat)
  deriving DecidableEq, Repr

/-- Poseidon configuration, from
`ark_crypto_primitives::sponge::poseidon::PoseidonConfig`.  `mds` and `ark`
are row-major matrices; `ark` holds one row of round constants per round. -/
structure PoseidonConfig (F : Type) where
  full_rounds : Nat
  partial_rounds : Nat
  alpha : Nat
  mds : List (List F)
  ark : List (List F)
  rate : Nat
  capacity : Nat
  deriving DecidableEq, Repr

/-- Native Poseidon sponge state, from
`ark_crypto_primitives::sponge::poseidon::PoseidonSponge`. -/
structure PoseidonSponge (F : Type) where
  parameters : PoseidonConfig F
  state : List F
  mode : DuplexSpongeMode
  deriving DecidableEq, Repr

variable {F : Type} [CommRing F]

/-- Loop body of `PoseidonSponge::apply_ark`:
`state[i] += ark_row[i]` for `i` from the given index to the end of `state`. -/
def addRow (row : List F) : Nat → List F → List F
  | _, [] => []
  | i, x :: xs => (x + row.getD i 0) :: addRow row (i + 1) xs

/-- `PoseidonSponge::apply_ark`: element-wise addition of the round-`r`
constants into the state. -/
def applyArk (cfg : PoseidonConfig F) (r : Nat) (state : List F) : List F :=
  addRow (cfg.ark.getD r []) 0 state

/-- `PoseidonSponge::apply_s_box`: in a full round the map `x ↦ x^alpha` is
applied to every state element, in a partial round only to `state[0]`.
(`state[0]` on an empty state would panic in Rust; every state in this
development has width `rate + capacity ≥ 1`.) -/
def applySBox (cfg : PoseidonConfig F) (is_full_round : Bool) (state : List F) :
    List F :=
  if is_full_round then
    state.map (fun x => x ^ cfg.alpha)
  else
    match state with
    | [] => []
    | x :: xs => (x ^ cfg.alpha) :: xs

/-- Inner loop of `PoseidonSponge::apply_mds`: running sum
`Σ_j state[j] * row[j]` starting at column index `j`. -/
def dotRow (row : List F) : Nat → List F → F
  | _, [] => 0
  | j, x :: xs => x * row.getD j 0 + dotRow row (j + 1) xs

/-- `PoseidonSponge::apply_mds`: `new_state[i] = Σ_j state[j] * mds[i][j]`. -/
def applyMds (cfg : PoseidonConfig F) (state : List F) : List F :=
  (List.range state.length).map (fun i => dotRow (cfg.mds.getD i []) 0 state)

/-- One permutation round: add round constants for round `r`, apply the S-box
(full or partial), multiply by the MDS matrix — the body shared by the three
loops of `PoseidonSponge::permute`. -/
def roundFn (cfg : PoseidonConfig F) (is_full_round : Bool) (state : List F)
    (r : Nat) : List F :=
  applyMds cfg (applySBox cfg is_full_round (applyArk cfg r state))

/-- `PoseidonSponge::permute` on the raw state: `full_rounds / 2` full rounds,
then `partial_rounds` partial rounds, then the remaining full rounds, the
round-constant row index running from `0` to `full_rounds + partial_rounds - 1`
in order. -/
def permuteState (cfg : PoseidonConfig F) (state : List F) : List F :=
  let full_rounds_over_2 := cfg.full_rounds / 2
  let st1 := (List.range full_rounds_over_2).foldl (roundFn cfg true) state
  let st2 := (List.range' full_rounds_over_2 cfg.partial_rounds).foldl
    (roundFn cfg false) st1
  (List.range' (full_rounds_over_2 + cfg.partial_rounds)
    (cfg.full_rounds - full_rounds_over_2)).foldl (roundFn cfg true) st2

/-- `PoseidonSponge::permute`. -/
def PoseidonSponge.permute (sp : PoseidonSponge F) : PoseidonSponge F :=
  { sp with state := permuteState sp.parameters sp.state }

/-- Loop of `PoseidonSponge::absorb_internal`'s placement step:
`state[pos + i] += elems[i]`. -/
def addBlock (state : List F) : Nat → List F → List F
  | _, [] => state
  | pos, e :: es => addBlock (state.set pos (state.getD pos 0 + e)) (pos + 1) es

/-- `PoseidonSponge::absorb_internal`: place elements into the rate portion of
the state starting at `rate_start_index`, permuting each time a rate block
fills before the input is exhausted.  The Rust loop never terminates when
`rate - rate_start_index = 0` with input remaining; that branch (unreachable
for the configurations of this crate, whose rate is 4) is modelled as the
identity. -/
def absorbInternal (sp : PoseidonSponge F) (rate_start_index : Nat)
    (elems : List F) : PoseidonSponge F :=
  if rate_start_index + elems.length ≤ sp.parameters.rate then
    { sp with
      state := addBlock sp.state (sp.parameters.capacity + rate_start_index) elems,
      mode := .absorbing (rate_start_index + elems.length) }
  else
    let k := sp.parameters.rate - rate_start_index
    if hk : k = 0 then sp
    else
      absorbInternal
        (PoseidonSponge.permute
          { sp with
            state := addBlock sp.state (sp.parameters.capacity + rate_start_index)
              (elems.take k) })
        0 (elems.drop k)
termination_by elems.length
decreasing_by
  simp only [List.length_drop]
  omega

/-- `CryptographicSponge::absorb` for `PoseidonSponge`, specialised to an input
whose `to_sponge_field_elements` rendering is `elems` (a single field element
renders as `[f]`, a `Vec<F>` as itself). -/
def absorbElems (sp : PoseidonSponge F) (elems : List F) : PoseidonSponge F :=
  if elems.isEmpty then sp
  else
    match sp.mode with
    | .absorbing next_absorb_index =>
      if next_absorb_index = sp.parameters.rate then
        absorbInternal sp.permute 0 elems
      else
        absorbInternal sp next_absorb_index elems
    | .squeezing _ => absorbInternal sp.permute 0 elems

/-- `PoseidonSponge::squeeze_internal`: read `out_len` elements from the rate
portion starting at `rate_start_index`, permuting between rate blocks (except,
per the source, when the remaining output is exactly one rate block).  The
returned list is the squeezed output.  As with absorption, the branch on which
the Rust loop would never terminate is modelled as returning no output. -/
def squeezeInternal (sp : PoseidonSponge F) (rate_start_index : Nat)
    (out_len : Nat) : List F × PoseidonSponge F :=
  if rate_start_index + out_len ≤ sp.parameters.rate then
    (((List.range out_len).map
        (fun i => sp.state.getD (sp.parameters.capacity + rate_start_index + i) 0)),
      { sp with mode := .squeezing (rate_start_index + out_len) })
  else
    let k := sp.parameters.rate - rate_start_index
    if hk : k = 0 then ([], sp)
    else
      let block := (List.range k).map
        (fun i => sp.state.getD (sp.parameters.capacity + rate_start_index + i) 0)
      if out_len ≠ sp.parameters.rate then
        let rest := squeezeInternal sp.permute 0 (out_len - k)
        (block ++ rest.1, rest.2)
      else
        let rest := squeezeInternal sp 0 (out_len - k)
        (block ++ rest.1, rest.2)
termination_by out_len
decreasing_by
  all_goals omega

/-- `PoseidonSponge::squeeze_native_field_elements` (which
`squeeze_field_elements::<F>` dispatches to when the requested field is the
sponge's native field, as in `PoseidonHash::squeeze`). -/
def squeezeFieldElements (sp : PoseidonSponge F) (num_elements : Nat) :
    List F × PoseidonSponge F :=
  match sp.mode with
  | .absorbing _ => squeezeInternal sp.permute 0 num_elements
  | .squeezing next_squeeze_index =>
    if next_squeeze_index = sp.parameters.rate then
      squeezeInternal sp.permute 0 num_elements
    else
      squeezeInternal sp next_squeeze_index num_elements

/-- `CryptographicSponge::new` for `PoseidonSponge`: all-zero state of width
`rate + capacity`, absorbing mode with cursor 0. -/
def PoseidonSponge.new (cfg : PoseidonConfig F) : PoseidonSponge F :=
  { parameters := cfg,
    state := List.replicate (cfg.rate + cfg.capacity) 0,
    mode := .absorbing 0 }

/-- The data `get_poseidon_config::<F>` draws from the field type and from
`ark_crypto_primitives`: the field's `MODULUS_BIT_SIZE` and the deterministic
`find_poseidon_ark_and_mds` derivation (Grain-LFSR search), which this
development treats as an opaque deterministic oracle returning the
`(ark, mds)` pair for the given
`(modulus bits, rate, full rounds, partial rounds, seed)` arguments. -/
structure FieldParams (F : Type) where
  modulusBitSize : Nat
  findArkAndMds : Nat → Nat → Nat → Nat → Nat → List (List F) × List (List F)

/-- `get_poseidon_config` from `src/src/hash.rs`: fixes
`FULL_ROUNDS = 8`, `PARTIAL_ROUNDS = 60`, `ALPHA = 5`, `RATE = 4`, calls
`find_poseidon_ark_and_mds(MODULUS_BIT_SIZE, RATE, FULL_ROUNDS,
PARTIAL_ROUNDS, 0)` and assembles a `PoseidonConfig` with capacity 1. -/
def get_poseidon_config (fp : FieldParams F) : PoseidonConfig F :=
  let FULL_ROUNDS : Nat := 8
  let PARTIAL_ROUNDS : Nat := 60
  let ALPHA : Nat := 5
  let RATE : Nat := 4
  let arkMds := fp.findArkAndMds fp.modulusBitSize RATE FULL_ROUNDS PARTIAL_ROUNDS 0
  { full_rounds := FULL_ROUNDS
    partial_rounds := PARTIAL_ROUNDS
    alpha := ALPHA
    mds := arkMds.2
    ark := arkMds.1
    rate := RATE
    capacity := 1 }

/-- Outcome of a native operation that can abort the process: `ok`, or a Rust
panic with its message. -/
inductive PanicOr (α : Type) where
  | ok (a : α)
  | panicked (msg : String)
  deriving DecidableEq, Repr

/-- `PoseidonHash` from `src/src/hash.rs`: the native-field sponge wrapper. -/
structure PoseidonHash (F : Type) where
  sponge : PoseidonSponge F
  deriving DecidableEq, Repr

/-- `PoseidonHash::new`: a sponge initialised with the canonical parameters. -/
def PoseidonHash.new (fp : FieldParams F) : PoseidonHash F :=
  { sponge := PoseidonSponge.new (get_poseidon_config fp) }

/-- `PoseidonHash::absorb_many` for an iterator of single field elements
(`A = F`, whose `to_sponge_field_elements` rendering is the one-element
sequence): one `absorb` call per element. -/
def PoseidonHash.absorb_many (h : PoseidonHash F) (iter : List F) :
    PoseidonHash F :=
  { sponge := iter.foldl (fun sp elem => absorbElems sp [elem]) h.sponge }

/-- `PoseidonHash::squeeze`: `squeeze_field_elements(1)` followed by indexing
`[0]`, which panics when the returned vector is empty. -/
def PoseidonHash.squeeze (h : PoseidonHash F) : PanicOr (F × PoseidonHash F) :=
  let squeezed := squeezeFieldElements h.sponge 1
  match squeezed.1 with
  | [] => .panicked "index out of bounds"
  | x :: _ => .ok (x, { sponge := squeezed.2 })

/-! ## Circuit side

The R1CS side is modelled with value semantics: a symbolic field value
(`FpVar`) is its evaluation under the (unique) satisfying assignment that the
generated constraints pin down once the externally supplied inputs are fixed,
together with arkworks' `Constant` / allocated-variable distinction, which
determines when an operation allocates.  The external constraint system is an
oracle that tracks the assignments allocated so far and may reject new
allocations (spec §7: resource exhaustion), modelled by an optional remaining
allocation budget. -/

/-- `ark_relations::r1cs::SynthesisError`, restricted to the conditions this
model can produce: `allocationRejected` stands for the external system
rejecting a new witness or constraint. -/
inductive SynthesisError where
  | allocationRejected
  | assignmentMissing
  deriving DecidableEq, Repr

/-- Model of `ark_relations::r1cs::ConstraintSystemRef`: the input and witness
assignments allocated so far, and the number of further allocations the
external system will accept (`none` = unbounded). -/
structure ConstraintSystem (F : Type) where
  inputValues : List F
  witnessValues : List F
  budget : Option Nat
  deriving DecidableEq, Repr

/-- Result of a fallible gadget computation threading the constraint system:
`ark`'s `Result<α, SynthesisError>` with the mutated system on success. -/
inductive SynRes (F : Type) (α : Type) where
  | ok (a : α) (cs : ConstraintSystem F)
  | err (e : SynthesisError)
  deriving DecidableEq, Repr

/-- A fallible gadget computation: `ConstraintSystem`-threading state with
`SynthesisError` failure. -/
abbrev SynM (F : Type) (α : Type) : Type :=
  ConstraintSystem F → SynRes F α

/-- Result of a computation that may also panic (the `unwrap`/`expect`/index
sites of the wrappers), on top of `SynRes`. -/
inductive PanicRes (F : Type) (α : Type) where
  | ok (a : α) (cs : ConstraintSystem F)
  | err (e : SynthesisError)
  | panicked (msg : String)
  deriving DecidableEq, Repr

/-- Model of `ark_r1cs_std::fields::fp::FpVar`: a compile-time constant or an
allocated variable, each carrying its evaluation. -/
inductive FpVarE (F : Type) where
  | const (c : F)
  | var (v : F)
  deriving DecidableEq, Repr

/-- The evaluation of a symbolic field value under the satisfying
assignment. -/
def FpVarE.val : FpVarE F → F
  | .const c => c
  | .var v => v

/-- `FpVar + F` (constant addition, as in `apply_ark`): a linear operation,
no allocation. -/
def FpVarE.addConstant : FpVarE F → F → FpVarE F
  | .const c, k => .const (c + k)
  | .var v, k => .var (v + k)

/-- `FpVar + FpVar` (as in `apply_mds`'s running sum): a linear combination,
no allocation. -/
def FpVarE.add : FpVarE F → FpVarE F → FpVarE F
  | .const a, .const b => .const (a + b)
  | .const a, .var v => .var (a + v)
  | .var v, .const b => .var (v + b)
  | .var a, .var b => .var (a + b)

/-- `FpVar * F` (multiplication by a constant, as in `apply_mds`): a scaled
linear combination, no allocation. -/
def FpVarE.mulConstant : FpVarE F → F → FpVarE F
  | .const c, k => .const (c * k)
  | .var v, k => .var (v * k)

/-- One allocation request to the external constraint system.  With an
exhausted budget the system rejects the allocation; otherwise the value is
recorded (into the input or the witness assignment) and any finite budget
decreases by one. -/
def ConstraintSystem.alloc (cs : ConstraintSystem F) (isInput : Bool) (v : F) :
    SynRes F Unit :=
  match cs.budget with
  | some 0 => .err .allocationRejected
  | some (b + 1) =>
    if isInput then
      .ok () { cs with inputValues := cs.inputValues ++ [v], budget := some b }
    else
      .ok () { cs with witnessValues := cs.witnessValues ++ [v], budget := some b }
  | none =>
    if isInput then
      .ok () { cs with inputValues := cs.inputValues ++ [v] }
    else
      .ok () { cs with witnessValues := cs.witnessValues ++ [v] }

/-- `FpVar::new_input`: allocate a public-input variable holding `v`. -/
def newInputVar (v : F) (cs : ConstraintSystem F) : SynRes F (FpVarE F) :=
  match cs.alloc true v with
  | .ok _ cs' => .ok (.var v) cs'
  | .err e => .err e

/-- `FpVar::new_witness`: allocate a private witness variable holding `v`. -/
def newWitnessVar (v : F) (cs : ConstraintSystem F) : SynRes F (FpVarE F) :=
  match cs.alloc false v with
  | .ok _ cs' => .ok (.var v) cs'
  | .err e => .err e

/-- `FpVar::square_in_place` step of `pow_by_constant`: squaring a constant
stays a constant, squaring a variable allocates the product witness and its
constraint. -/
def squareVar (x : FpVarE F) (cs : ConstraintSystem F) : SynRes F (FpVarE F) :=
  match x with
  | .const c => .ok (.const (c * c)) cs
  | .var v =>
    match cs.alloc false (v * v) with
    | .ok _ cs' => .ok (.var (v * v)) cs'
    | .err e => .err e

/-- `FpVar * FpVar` (`mul` step of `pow_by_constant`): constant-by-constant
folds, constant-by-variable scales, variable-by-variable allocates the product
witness and its constraint. -/
def mulVar (x y : FpVarE F) (cs : ConstraintSystem F) : SynRes F (FpVarE F) :=
  match x, y with
  | .const a, .const b => .ok (.const (a * b)) cs
  | .const a, .var v => .ok (.var (a * v)) cs
  | .var v, .const b => .ok (.var (v * b)) cs
  | .var a, .var b =>
    match cs.alloc false (a * b) with
    | .ok _ cs' => .ok (.var (a * b)) cs'
    | .err e => .err e

/-- Loop of `FpVar::pow_by_constant`: for each exponent bit (most significant
first), square the accumulator and, on a set bit, multiply by the base. -/
def powBitsVar (x : FpVarE F) : List Bool → FpVarE F → SynM F (FpVarE F)
  | [], res, cs => .ok res cs
  | b :: bs, res, cs =>
    match squareVar res cs with
    | .ok r2 cs1 =>
      if b then
        match mulVar r2 x cs1 with
        | .ok r3 cs2 => powBitsVar x bs r3 cs2
        | .err e => .err e
      else powBitsVar x bs r2 cs1
    | .err e => .err e

/-- `FpVar::pow_by_constant`: square-and-multiply over the exponent's bits
without leading zeros, most significant first, starting from the constant
one. -/
def pow_by_constant (x : FpVarE F) (exp : Nat) : SynM F (FpVarE F) :=
  powBitsVar x (Nat.bits exp).reverse (.const 1)

/-- Full-round loop of `PoseidonSpongeVar::apply_s_box`: `pow_by_constant` on
every state element in order. -/
def sboxFullVar (alpha : Nat) : List (FpVarE F) → SynM F (List (FpVarE F))
  | [], cs => .ok [] cs
  | x :: xs, cs =>
    match pow_by_constant x alpha cs with
    | .ok y cs1 =>
      match sboxFullVar alpha xs cs1 with
      | .ok ys cs2 => .ok (y :: ys) cs2
      | .err e => .err e
    | .err e => .err e

/-- `PoseidonSpongeVar::apply_s_box`. -/
def applySBoxVar (cfg : PoseidonConfig F) (is_full_round : Bool)
    (state : List (FpVarE F)) (cs : ConstraintSystem F) :
    SynRes F (List (FpVarE F)) :=
  if is_full_round then sboxFullVar cfg.alpha state cs
  else
    match state with
    | [] => SynRes.ok [] cs
    | x :: xs =>
      match pow_by_constant x cfg.alpha cs with
      | .ok y cs1 => .ok (y :: xs) cs1
      | .err e => .err e

/-- Loop of `PoseidonSpongeVar::apply_ark` (constant addition is linear and
infallible in arkworks, hence pure here). -/
def addRowVar (row : List F) : Nat → List (FpVarE F) → List (FpVarE F)
  | _, [] => []
  | i, x :: xs => x.addConstant (row.getD i 0) :: addRowVar row (i + 1) xs

/-- `PoseidonSpongeVar::apply_ark`. -/
def applyArkVar (cfg : PoseidonConfig F) (r : Nat) (state : List (FpVarE F)) :
    List (FpVarE F) :=
  addRowVar (cfg.ark.getD r []) 0 state

/-- Inner loop of `PoseidonSpongeVar::apply_mds`: running sum of
`state[j] * mds_row[j]` (constant scaling and addition are linear and
infallible). -/
def dotRowVar (row : List F) : Nat → List (FpVarE F) → FpVarE F
  | _, [] => .const 0
  | j, x :: xs => (x.mulConstant (row.getD j 0)).add (dotRowVar row (j + 1) xs)

/-- `PoseidonSpongeVar::apply_mds`. -/
def applyMdsVar (cfg : PoseidonConfig F) (state : List (FpVarE F)) :
    List (FpVarE F) :=
  (List.range state.length).map (fun i => dotRowVar (cfg.mds.getD i []) 0 state)

/-- One gadget permutation round (the body shared by the three loops of
`PoseidonSpongeVar::permute`). -/
def roundFnVar (cfg : PoseidonConfig F) (is_full_round : Bool)
    (state : List (FpVarE F)) (r : Nat) (cs : ConstraintSystem F) :
    SynRes F (List (FpVarE F)) :=
  match applySBoxVar cfg is_full_round (applyArkVar cfg r state) cs with
  | .ok st cs1 => .ok (applyMdsVar cfg st) cs1
  | .err e => .err e

/-- One loop of `PoseidonSpongeVar::permute`, over its list of round
indices. -/
def roundsVar (cfg : PoseidonConfig F) (is_full_round : Bool) :
    List Nat → List (FpVarE F) → SynM F (List (FpVarE F))
  | [], st, cs => .ok st cs
  | r :: rs, st, cs =>
    match roundFnVar cfg is_full_round st r cs with
    | .ok st1 cs1 => roundsVar cfg is_full_round rs st1 cs1
    | .err e => .err e

/-- R1CS Poseidon sponge, from
`ark_crypto_primitives::sponge::poseidon::constraints::PoseidonSpongeVar`.
Its `cs` handle is the constraint system threaded by `SynM`. -/
structure PoseidonSpongeVar (F : Type) where
  parameters : PoseidonConfig F
  state : List (FpVarE F)
  mode : DuplexSpongeMode
  deriving DecidableEq, Repr

/-- `PoseidonSpongeVar::permute`: the same `full/2`, partial, `full/2`
schedule as the native permutation, over symbolic values. -/
def PoseidonSpongeVar.permute (sv : PoseidonSpongeVar F)
    (cs : ConstraintSystem F) : SynRes F (PoseidonSpongeVar F) :=
  let full_rounds_over_2 := sv.parameters.full_rounds / 2
  match roundsVar sv.parameters true (List.range full_rounds_over_2)
      sv.state cs with
  | .ok st1 cs1 =>
    match roundsVar sv.parameters false
        (List.range' full_rounds_over_2 sv.parameters.partial_rounds) st1 cs1 with
    | .ok st2 cs2 =>
      match roundsVar sv.parameters true
          (List.range' (full_rounds_over_2 + sv.parameters.partial_rounds)
            (sv.parameters.full_rounds - full_rounds_over_2)) st2 cs2 with
      | .ok st3 cs3 => .ok { sv with state := st3 } cs3
      | .err e => .err e
    | .err e => .err e
  | .err e => .err e

/-- Placement loop of `PoseidonSpongeVar::absorb_internal`:
`state[pos + i] += elems[i]` over symbolic values. -/
def addBlockVar (state : List (FpVarE F)) :
    Nat → List (FpVarE F) → List (FpVarE F)
  | _, [] => state
  | pos, e :: es =>
    addBlockVar (state.set pos ((state.getD pos (.const 0)).add e)) (pos + 1) es

/-- `PoseidonSpongeVar::absorb_internal` (same loop as the native
`absorb_internal`, threading the constraint system; the branch on which the
Rust loop would never terminate is again modelled as the identity). -/
def absorbInternalVar (sv : PoseidonSpongeVar F) (rate_start_index : Nat)
    (elems : List (FpVarE F)) (cs : ConstraintSystem F) :
    SynRes F (PoseidonSpongeVar F) :=
  if rate_start_index + elems.length ≤ sv.parameters.rate then
    .ok { sv with
          state := addBlockVar sv.state
            (sv.parameters.capacity + rate_start_index) elems,
          mode := .absorbing (rate_start_index + elems.length) } cs
  else
    let k := sv.parameters.rate - rate_start_index
    if hk : k = 0 then .ok sv cs
    else
      match PoseidonSpongeVar.permute
          { sv with
            state := addBlockVar sv.state
              (sv.parameters.capacity + rate_start_index) (elems.take k) } cs with
      | .ok sv' cs1 => absorbInternalVar sv' 0 (elems.drop k) cs1
      | .err e => .err e
termination_by elems.length
decreasing_by
  simp only [List.length_drop]
  omega

/-- `CryptographicSpongeVar::absorb` for `PoseidonSpongeVar`, specialised to
an input whose `to_sponge_field_elements` rendering is `elems` (an `FpVar`
renders as itself; a `Vec<FpVar>` as the concatenation). -/
def PoseidonSpongeVar.absorb (sv : PoseidonSpongeVar F)
    (elems : List (FpVarE F)) (cs : ConstraintSystem F) :
    SynRes F (PoseidonSpongeVar F) :=
  if elems.isEmpty then .ok sv cs
  else
    match sv.mode with
    | .absorbing next_absorb_index =>
      if next_absorb_index = sv.parameters.rate then
        match sv.permute cs with
        | .ok sv' cs1 => absorbInternalVar sv' 0 elems cs1
        | .err e => .err e
      else absorbInternalVar sv next_absorb_index elems cs
    | .squeezing _ =>
      match sv.permute cs with
      | .ok sv' cs1 => absorbInternalVar sv' 0 elems cs1
      | .err e => .err e

/-- `PoseidonSpongeVar::squeeze_internal` (same loop as the native
`squeeze_internal`, threading the constraint system). -/
def squeezeInternalVar (sv : PoseidonSpongeVar F) (rate_start_index : Nat)
    (out_len : Nat) (cs : ConstraintSystem F) :
    SynRes F (List (FpVarE F) × PoseidonSpongeVar F) :=
  if rate_start_index + out_len ≤ sv.parameters.rate then
    .ok (((List.range out_len).map
        (fun i => sv.state.getD (sv.parameters.capacity + rate_start_index + i)
          (.const 0))),
      { sv with mode := .squeezing (rate_start_index + out_len) }) cs
  else
    let k := sv.parameters.rate - rate_start_index
    if hk : k = 0 then .ok ([], sv) cs
    else
      let block := (List.range k).map
        (fun i => sv.state.getD (sv.parameters.capacity + rate_start_index + i)
          (.const 0))
      if out_len ≠ sv.parameters.rate then
        match sv.permute cs with
        | .ok sv' cs1 =>
          match squeezeInternalVar sv' 0 (out_len - k) cs1 with
          | .ok p cs2 => .ok (block ++ p.1, p.2) cs2
          | .err e => .err e
        | .err e => .err e
      else
        match squeezeInternalVar sv 0 (out_len - k) cs with
        | .ok p cs1 => .ok (block ++ p.1, p.2) cs1
        | .err e => .err e
termination_by out_len
decreasing_by
  all_goals omega

/-- `PoseidonSpongeVar::squeeze_field_elements`. -/
def squeezeFieldElementsVar (sv : PoseidonSpongeVar F) (num_elements : Nat)
    (cs : ConstraintSystem F) :
    SynRes F (List (FpVarE F) × PoseidonSpongeVar F) :=
  match sv.mode with
  | .absorbing _ =>
    match sv.permute cs with
    | .ok sv' cs1 => squeezeInternalVar sv' 0 num_elements cs1
    | .err e => .err e
  | .squeezing next_squeeze_index =>
    if next_squeeze_index = sv.parameters.rate then
      match sv.permute cs with
      | .ok sv' cs1 => squeezeInternalVar sv' 0 num_elements cs1
      | .err e => .err e
    else squeezeInternalVar sv next_squeeze_index num_elements cs

/-- `CryptographicSpongeVar::new` for `PoseidonSpongeVar`: all-constant-zero
state of width `rate + capacity`, absorbing mode with cursor 0. -/
def PoseidonSpongeVar.new (cfg : PoseidonConfig F) : PoseidonSpongeVar F :=
  { parameters := cfg,
    state := List.replicate (cfg.rate + cfg.capacity) (.const 0),
    mode := .absorbing 0 }

/-- `PoseidonHashVar` from `src/src/hash.rs`: the constraint-system variant of
`PoseidonHash`. -/
structure PoseidonHashVar (F : Type) where
  sponge : PoseidonSpongeVar F
  deriving DecidableEq, Repr

/-- `PoseidonHashVar::new`: a fresh sponge gadget with the canonical
parameters inside the given (threaded) constraint system. -/
def PoseidonHashVar.new (fp : FieldParams F) : PoseidonHashVar F :=
  { sponge := PoseidonSpongeVar.new (get_poseidon_config fp) }

/-- The state-binding loop of `PoseidonHashVar::from_poseidon_hash`: for every
native state element, `FpVar::new_input(cs, || Ok(f)).unwrap()` — an
allocation rejection makes the `unwrap` panic. -/
def allocInputsUnwrap :
    List F → ConstraintSystem F → PanicRes F (List (FpVarE F))
  | [], cs => .ok [] cs
  | f :: fs, cs =>
    match newInputVar f cs with
    | .ok v cs1 =>
      match allocInputsUnwrap fs cs1 with
      | .ok vs cs2 => .ok (v :: vs) cs2
      | .err e => .err e
      | .panicked m => .panicked m
    | .err _ => .panicked "called Result::unwrap() on an Err value"

/-- `PoseidonHashVar::from_poseidon_hash`: bind each native state element as a
public input (unwrapping each allocation), and copy the native sponge's
parameters and mode. -/
def PoseidonHashVar.from_poseidon_hash (native : PoseidonHash F)
    (cs : ConstraintSystem F) : PanicRes F (PoseidonHashVar F) :=
  match allocInputsUnwrap native.sponge.state cs with
  | .ok stateVars cs' =>
    .ok { sponge := { parameters := native.sponge.parameters,
                      state := stateVars,
                      mode := native.sponge.mode } } cs'
  | .err e => .err e
  | .panicked m => .panicked m

/-- Loop of `PoseidonHashVar::absorb_many`: one
`self.sponge.absorb(&elem).expect("Error while sponge absorbing")` call per
element — an absorption failure makes the `expect` panic. -/
def absorbManyLoopVar (sv : PoseidonSpongeVar F) :
    List (FpVarE F) → ConstraintSystem F → PanicRes F (PoseidonSpongeVar F)
  | [], cs => .ok sv cs
  | e :: es, cs =>
    match sv.absorb [e] cs with
    | .ok sv' cs1 => absorbManyLoopVar sv' es cs1
    | .err _ => .panicked "Error while sponge absorbing"

/-- `PoseidonHashVar::absorb_many` for an iterator of field gadgets. -/
def PoseidonHashVar.absorb_many (hv : PoseidonHashVar F)
    (iter : List (FpVarE F)) (cs : ConstraintSystem F) :
    PanicRes F (PoseidonHashVar F) :=
  match absorbManyLoopVar hv.sponge iter cs with
  | .ok sv cs' => .ok { sponge := sv } cs'
  | .err e => .err e
  | .panicked m => .panicked m

/-- `PoseidonHashVar::squeeze`:
`self.sponge.squeeze_field_elements(1).unwrap()` followed by indexing `[0]`,
panicking on a squeeze failure or an empty vector. -/
def PoseidonHashVar.squeeze (hv : PoseidonHashVar F)
    (cs : ConstraintSystem F) : PanicRes F (FpVarE F × PoseidonHashVar F) :=
  match squeezeFieldElementsVar hv.sponge 1 cs with
  | .ok p cs1 =>
    match p.1 with
    | [] => .panicked "index out of bounds"
    | x :: _ => .ok (x, { sponge := p.2 }) cs1
  | .err _ => .panicked "called Result::unwrap() on an Err value"

/-- `PoseidonCircuit` from `src/src/circuit.rs` (the `PhantomData` field has
no runtime content). -/
structure PoseidonCircuit where
  n : Nat
  deriving DecidableEq, Repr

/-- The deterministic vector `(0..n).map(|_| F::rand(&mut rng))` with
`rng = StdRng::seed_from_u64(42)`; the ChaCha-based sample stream is abstracted
as a function `rng : Nat → F` giving the i-th sample. -/
def randomVector (rng : Nat → F) (n : Nat) : List F :=
  (List.range n).map rng

/-- The witness-allocation phase of `PoseidonCircuit::generate_constraints`:
`random_vector.into_iter().map(|x| FpVar::new_witness(cs, || Ok(x)))
.collect::<Result<Vec<_>, _>>()?` — the first rejection aborts the collection
with its error. -/
def allocWitnesses : List F → SynM F (List (FpVarE F))
  | [], cs => .ok [] cs
  | x :: xs, cs =>
    match newWitnessVar x cs with
    | .ok v cs1 =>
      match allocWitnesses xs cs1 with
      | .ok vs cs2 => .ok (v :: vs) cs2
      | .err e => .err e
    | .err e => .err e

/-- Body of `PoseidonCircuit::generate_constraints` up to and including the
hash output `poseidon_var.squeeze_field_elements(1)?[0]` (bound to `_output`
in the source before being dropped): allocate the seeded random vector as
witnesses, build a fresh sponge gadget from the shared configuration, absorb
the witness variables in one call, squeeze one element and index it. -/
def PoseidonCircuit.genBody (fp : FieldParams F) (rng : Nat → F) (n : Nat)
    (cs : ConstraintSystem F) : PanicRes F (FpVarE F) :=
  match allocWitnesses (randomVector rng n) cs with
  | .ok input_vars cs1 =>
    let poseidon_var := PoseidonSpongeVar.new (get_poseidon_config fp)
    match poseidon_var.absorb input_vars cs1 with
    | .ok sv cs2 =>
      match squeezeFieldElementsVar sv 1 cs2 with
      | .ok p cs3 =>
        match p.1 with
        | [] => .panicked "index out of bounds"
        | x :: _ => .ok x cs3
      | .err e => .err e
    | .err e => .err e
  | .err e => .err e

/-- `PoseidonCircuit::generate_constraints`: the body, with the hash output
dropped and `Ok(())` returned. -/
def PoseidonCircuit.generate_constraints (fp : FieldParams F) (rng : Nat → F)
    (c : PoseidonCircuit) (cs : ConstraintSystem F) : PanicRes F Unit :=
  match PoseidonCircuit.genBody fp rng c.n cs with
  | .ok _ cs' => .ok () cs'
  | .err e => .err e
  | .panicked m => .panicked m

/-! ## Helper definitions for the statements -/

/-- The native sponge a gadget sponge denotes: same parameters and mode, state
evaluated under the satisfying assignment. -/
def PoseidonSpongeVar.toNative (sv : PoseidonSpongeVar F) : PoseidonSponge F :=
  { parameters := sv.parameters, state := sv.state.map FpVarE.val, mode := sv.mode }

/-- The cursor carried by a sponge mode. -/
def DuplexSpongeMode.cursor : DuplexSpongeMode → Nat
  | .absorbing i => i
  | .squeezing i => i

/-- The state invariant every sponge reachable through the API satisfies: a
positive rate and a mode cursor within the rate. -/
def PoseidonSponge.wellFormed (sp : PoseidonSponge F) : Prop :=
  0 < sp.parameters.rate ∧ sp.mode.cursor ≤ sp.parameters.rate

instance (sp : PoseidonSponge F) : Decidable sp.wellFormed := by
  unfold PoseidonSponge.wellFormed
  infer_instance

/-- Modelled from the spec: the permutation described in §4.2 applies
`full_round_count` full rounds first, then `partial_round_count` partial
rounds, with round-constant rows consumed in order, one per round.  This
definition exists only for comparison with `permuteState`, which is
translated from the source. -/
def permuteSpecOrder (cfg : PoseidonConfig F) (state : List F) : List F :=
  let st1 := (List.range cfg.full_rounds).foldl (roundFn cfg true) state
  (List.range' cfg.full_rounds cfg.partial_rounds).foldl (roundFn cfg false) st1

/-- Apply a sequence of rounds, one flag (`true` = full, `false` = partial)
per round, the round-constant row index advancing by one each round. -/
def applyRoundsFrom (cfg : PoseidonConfig F) : Nat → List Bool → List F → List F
  | _, [], st => st
  | r, b :: bs, st => applyRoundsFrom cfg (r + 1) bs (roundFn cfg b st r)

/-- The native-hash states reachable through the public API of
`PoseidonHash`: the fresh sponge, and anything obtained from a reachable
state by `absorb_many` or by a successful `squeeze`. -/
inductive ReachableHash (fp : FieldParams F) : PoseidonHash F → Prop where
  | new : ReachableHash fp (PoseidonHash.new fp)
  | absorb_many (h : PoseidonHash F) (v : List F) :
      ReachableHash fp h → ReachableHash fp (h.absorb_many v)
  | squeeze (h h' : PoseidonHash F) (d : F) :
      ReachableHash fp h → h.squeeze = .ok (d, h') → ReachableHash fp h'

/-- A small concrete field-parameter bundle over `ZMod 5` used to instantiate
the generic theorems (the oracle returns constant tables). -/
def fp0 : FieldParams (ZMod 5) :=
  { modulusBitSize := 3,
    findArkAndMds := fun _ _ _ _ _ =>
      ((List.range 68).map (fun _ => List.replicate 5 1),
        List.replicate 5 (List.replicate 5 1)) }

/-- A concrete sample stream over `ZMod 5`. -/
def rng0 : Nat → ZMod 5 := fun i => (i : ZMod 5) + 1

/-- A concrete field-parameter bundle over `ZMod 7` whose oracle returns
distinct round-constant rows and a non-degenerate matrix, separating the two
candidate round orders. -/
def fpC4 : FieldParams (ZMod 7) :=
  { modulusBitSize := 3,
    findArkAndMds := fun _ _ _ _ _ =>
      ((List.range 68).map (fun r => [(r : ZMod 7) + 1, 2, 3, 4, 5]),
        [[1, 1, 1, 1, 1], [1, 2, 1, 1, 1], [1, 1, 3, 1, 1],
          [1, 1, 1, 4, 1], [2, 1, 1, 1, 2]]) }

/-- The configuration the program derives over `ZMod 7` from `fpC4`. -/
def cfgC4 : PoseidonConfig (ZMod 7) := get_poseidon_config fpC4

/-! ## Native sponge: structural lemmas -/

@[simp] theorem permute_parameters (sp : PoseidonSponge F) :
    sp.permute.parameters = sp.parameters := rfl

@[simp] theorem permute_mode (sp : PoseidonSponge F) :
    sp.permute.mode = sp.mode := rfl

theorem absorbInternal_parameters (sp : PoseidonSponge F) (i : Nat)
    (elems : List F) : (absorbInternal sp i elems).parameters = sp.parameters := by
  induction sp, i, elems using absorbInternal.induct with
  | case1 sp i elems h =>
    rw [absorbInternal]
    simp [h]
  | case2 sp i elems h k hk =>
    rw [absorbInternal]
    simp [h, show sp.parameters.rate - i = 0 from hk]
  | case3 sp i elems h k hk ih =>
    rw [absorbInternal]
    rw [if_neg h, dif_neg (show ¬sp.parameters.rate - i = 0 from hk)]
    exact ih

theorem absorbInternal_mode (sp : PoseidonSponge F) (i : Nat) (elems : List F) :
    (∃ j, (absorbInternal sp i elems).mode = .absorbing j) ∨
      (absorbInternal sp i elems).mode = sp.mode := by
  induction sp, i, elems using absorbInternal.induct with
  | case1 sp i elems h =>
    rw [absorbInternal]
    simp [h]
  | case2 sp i elems h k hk =>
    rw [absorbInternal]
    simp [h, show sp.parameters.rate - i = 0 from hk]
  | case3 sp i elems h k hk ih =>
    rw [absorbInternal]
    rw [if_neg h, dif_neg (show ¬sp.parameters.rate - i = 0 from hk)]
    rcases ih with ⟨j, hj⟩ | hsame
    · exact .inl ⟨j, hj⟩
    · rw [hsame]
      simp

theorem absorbInternal_cursor_le (sp : PoseidonSponge F) (i : Nat)
    (elems : List F) (hm : sp.mode.cursor ≤ sp.parameters.rate) :
    (absorbInternal sp i elems).mode.cursor ≤ sp.parameters.rate := by
  induction sp, i, elems using absorbInternal.induct with
  | case1 sp i elems h =>
    rw [absorbInternal]
    simp only [if_pos h]
    simpa [DuplexSpongeMode.cursor] using h
  | case2 sp i elems h k hk =>
    rw [absorbInternal]
    simpa [h, show sp.parameters.rate - i = 0 from hk] using hm
  | case3 sp i elems h k hk ih =>
    rw [absorbInternal]
    rw [if_neg h, dif_neg (show ¬sp.parameters.rate - i = 0 from hk)]
    simpa [PoseidonSponge.permute, absorbInternal_parameters] using
      ih (by simpa [PoseidonSponge.permute] using hm)

theorem absorbElems_parameters (sp : PoseidonSponge F) (elems : List F) :
    (absorbElems sp elems).parameters = sp.parameters := by
  unfold absorbElems
  split
  · rfl
  · split
    · split
      · rw [absorbInternal_parameters]; rfl
      · rw [absorbInternal_parameters]
    · rw [absorbInternal_parameters]; rfl

theorem absorbElems_cursor_le (sp : PoseidonSponge F) (elems : List F)
    (hr : 0 < sp.parameters.rate) (hm : sp.mode.cursor ≤ sp.parameters.rate) :
    (absorbElems sp elems).mode.cursor ≤ sp.parameters.rate := by
  unfold absorbElems
  split
  · exact hm
  · split
    · split
      · simpa using absorbInternal_cursor_le sp.permute 0 elems
          (by simpa using hm)
      · exact absorbInternal_cursor_le sp _ elems hm
    · simpa using absorbInternal_cursor_le sp.permute 0 elems
        (by simpa using hm)

theorem squeezeInternal_parameters (sp : PoseidonSponge F) (i k : Nat) :
    (squeezeInternal sp i k).2.parameters = sp.parameters := by
  induction sp, i, k using squeezeInternal.induct with
  | case1 sp i k h =>
    rw [squeezeInternal]
    simp [h]
  | case2 sp i k h kk hk =>
    rw [squeezeInternal]
    simp [h, show sp.parameters.rate - i = 0 from hk]
  | case3 sp i k h kk hk hne ih =>
    rw [squeezeInternal]
    rw [if_neg h, dif_neg (show ¬sp.parameters.rate - i = 0 from hk), if_pos hne]
    simpa using ih
  | case4 sp i k h kk hk hne ih =>
    rw [squeezeInternal]
    rw [if_neg h, dif_neg (show ¬sp.parameters.rate - i = 0 from hk), if_neg hne]
    simpa using ih

theorem squeezeInternal_cursor_le (sp : PoseidonSponge F) (i k : Nat)
    (hm : sp.mode.cursor ≤ sp.parameters.rate) :
    (squeezeInternal sp i k).2.mode.cursor ≤ sp.parameters.rate := by
  induction sp, i, k using squeezeInternal.induct with
  | case1 sp i k h =>
    rw [squeezeInternal]
    simp only [if_pos h]
    simpa [DuplexSpongeMode.cursor] using h
  | case2 sp i k h kk hk =>
    rw [squeezeInternal]
    simpa [h, show sp.parameters.rate - i = 0 from hk] using hm
  | case3 sp i k h kk hk hne ih =>
    rw [squeezeInternal]
    rw [if_neg h, dif_neg (show ¬sp.parameters.rate - i = 0 from hk), if_pos hne]
    simpa using ih (by simpa using hm)
  | case4 sp i k h kk hk hne ih =>
    rw [squeezeInternal]
    rw [if_neg h, dif_neg (show ¬sp.parameters.rate - i = 0 from hk), if_neg hne]
    simpa using ih hm

theorem squeezeFieldElements_parameters (sp : PoseidonSponge F) (k : Nat) :
    (squeezeFieldElements sp k).2.parameters = sp.parameters := by
  unfold squeezeFieldElements
  split
  · rw [squeezeInternal_parameters]; rfl
  · split
    · rw [squeezeInternal_parameters]; rfl
    · rw [squeezeInternal_parameters]

theorem squeezeFieldElements_cursor_le (sp : PoseidonSponge F) (k : Nat)
    (hm : sp.mode.cursor ≤ sp.parameters.rate) :
    (squeezeFieldElements sp k).2.mode.cursor ≤ sp.parameters.rate := by
  unfold squeezeFieldElements
  split
  · simpa using squeezeInternal_cursor_le sp.permute 0 k (by simpa using hm)
  · split
    · simpa using squeezeInternal_cursor_le sp.permute 0 k (by simpa using hm)
    · exact squeezeInternal_cursor_le sp _ k hm

/-- Squeezing one element always takes the immediate branch of
`squeeze_internal` when the start cursor is strictly inside the rate, so the
output has length exactly one. -/
theorem squeezeFieldElements_one_length (sp : PoseidonSponge F)
    (hr : 0 < sp.parameters.rate) (hm : sp.mode.cursor ≤ sp.parameters.rate) :
    ((squeezeFieldElements sp 1).1).length = 1 := by
  have key : ∀ (s : PoseidonSponge F) (i : Nat), i + 1 ≤ s.parameters.rate →
      ((squeezeInternal s i 1).1).length = 1 := by
    intro s i hi
    rw [squeezeInternal]
    simp [hi]
  unfold squeezeFieldElements
  split
  · exact key _ 0 (by simpa using hr)
  · rename_i j hj
    split
    · exact key _ 0 (by simpa using hr)
    · rename_i hne
      refine key _ j ?_
      have : j ≤ sp.parameters.rate := by simpa [DuplexSpongeMode.cursor, hj] using hm
      omega

/-! ## Absorption associativity -/

theorem addBlock_append (st : List F) (p : Nat) (xs ys : List F) :
    addBlock st p (xs ++ ys) = addBlock (addBlock st p xs) (p + xs.length) ys := by
  induction xs generalizing st p with
  | nil => simp [addBlock]
  | cons x xs ih =>
    rw [List.cons_append, addBlock, addBlock, ih]
    rw [show p + 1 + xs.length = p + (x :: xs).length by
      simp only [List.length_cons]; omega]

/-- `absorb_internal` reads only the parameters and the state, never the mode,
so sponges differing only in mode absorb identically. -/
theorem absorbInternal_mode_irrel (sp : PoseidonSponge F) (i : Nat)
    (elems : List F) (m : DuplexSpongeMode) (hi : i < sp.parameters.rate) :
    absorbInternal { sp with mode := m } i elems = absorbInternal sp i elems := by
  induction sp, i, elems using absorbInternal.induct generalizing m with
  | case1 sp i elems h =>
    conv_lhs => rw [absorbInternal]
    conv_rhs => rw [absorbInternal]
    simp [h]
  | case2 sp i elems h k hk =>
    exact absurd hi (by omega)
  | case3 sp i elems h k hk ih =>
    conv_lhs => rw [absorbInternal]
    conv_rhs => rw [absorbInternal]
    simp only [if_neg h, dif_neg (show ¬sp.parameters.rate - i = 0 from hk)]
    exact ih m (by simpa using (show 0 < sp.parameters.rate by omega))

theorem absorbElems_nil (sp : PoseidonSponge F) : absorbElems sp [] = sp := by
  rw [absorbElems]
  simp

/-- Core of absorption associativity: continuing an `absorb_internal` run with
a second `absorb` call is the same as absorbing the concatenation in the first
run, provided the start cursor is strictly inside the rate. -/
theorem absorbInternal_append (n : Nat) : ∀ (sp : PoseidonSponge F) (i : Nat)
    (xs ys : List F), xs.length ≤ n → i < sp.parameters.rate →
    absorbInternal sp i (xs ++ ys) = absorbElems (absorbInternal sp i xs) ys := by
  induction n with
  | zero =>
    intro sp i xs ys hlen hi
    have hxs : xs = [] := List.length_eq_zero.mp (Nat.le_zero.mp hlen)
    subst hxs
    rcases ys with _ | ⟨y, ys'⟩
    · rw [absorbElems_nil, List.append_nil]
    · rw [List.nil_append]
      have hfirst : absorbInternal sp i ([] : List F) =
          { sp with state := addBlock sp.state (sp.parameters.capacity + i) [],
                    mode := .absorbing i } := by
        rw [absorbInternal]
        simp [Nat.le_of_lt hi]
      rw [hfirst, absorbElems]
      simp only [List.isEmpty_cons, Bool.false_eq_true, if_false]
      rw [if_neg (show ¬i = sp.parameters.rate by omega)]
      rw [show addBlock sp.state (sp.parameters.capacity + i) [] = sp.state from rfl]
      exact (absorbInternal_mode_irrel sp i (y :: ys') (.absorbing i) hi).symm
  | succ n ihn =>
    intro sp i xs ys hlen hi
    rcases ys with _ | ⟨y, ys'⟩
    · rw [absorbElems_nil, List.append_nil]
    set ys := y :: ys' with hys
    by_cases hall : i + xs.length + ys.length ≤ sp.parameters.rate
    · -- everything fits in the current rate block
      have h1 : i + (xs ++ ys).length ≤ sp.parameters.rate := by
        simp [List.length_append]; omega
      have h2 : i + xs.length ≤ sp.parameters.rate := by omega
      rw [absorbInternal, if_pos h1, absorbInternal, if_pos h2, absorbElems]
      simp only [hys, List.isEmpty_cons, Bool.false_eq_true, if_false]
      rw [if_neg (show ¬i + xs.length = sp.parameters.rate by
        simp [hys] at hall ⊢; omega)]
      rw [absorbInternal,
        if_pos (show i + xs.length + ys.length ≤ sp.parameters.rate from hall)]
      simp only [List.length_append]
      rw [addBlock_append]
      rw [show sp.parameters.capacity + i + xs.length =
        sp.parameters.capacity + (i + xs.length) by omega]
      rw [show i + (xs.length + ys.length) = i + xs.length + ys.length by omega]
    · by_cases hfit : i + xs.length ≤ sp.parameters.rate
      · -- xs fits, ys crosses the block boundary
        have hk : sp.parameters.rate - i ≠ 0 := by omega
        have hcross : ¬i + (xs ++ ys).length ≤ sp.parameters.rate := by
          simp [List.length_append]; omega
        set k := sp.parameters.rate - i with hkdef
        have hxk : xs.length ≤ k := by omega
        have htake : List.take k (xs ++ ys) = xs ++ List.take (k - xs.length) ys := by
          rw [List.take_append_eq_append_take, List.take_of_length_le hxk]
        have hdrop : List.drop k (xs ++ ys) = List.drop (k - xs.length) ys := by
          rw [List.drop_append_eq_append_drop, List.drop_of_length_le hxk,
            List.nil_append]
        conv_lhs => rw [absorbInternal]
        rw [if_neg hcross, dif_neg hk]
        conv_rhs => rw [absorbInternal]
        rw [if_pos hfit, absorbElems]
        simp only [hys, List.isEmpty_cons, Bool.false_eq_true, if_false]
        by_cases hful : i + xs.length = sp.parameters.rate
        · -- xs ends exactly at the rate boundary
          rw [if_pos hful]
          have hk0 : k - xs.length = 0 := by omega
          rw [htake, hdrop, hk0, List.take_zero, List.drop_zero, List.append_nil]
          show absorbInternal
            (PoseidonSponge.permute { sp with
              state := addBlock sp.state (sp.parameters.capacity + i) xs }) 0 ys =
            absorbInternal
              (PoseidonSponge.permute { sp with
                state := addBlock sp.state (sp.parameters.capacity + i) xs,
                mode := .absorbing (i + xs.length) }) 0 ys
          rw [PoseidonSponge.permute, PoseidonSponge.permute]
          exact (absorbInternal_mode_irrel
            ⟨sp.parameters, permuteState sp.parameters
              (addBlock sp.state (sp.parameters.capacity + i) xs), sp.mode⟩
            0 ys (.absorbing (i + xs.length)) (show 0 < sp.parameters.rate by
              omega)).symm
        · -- xs ends strictly inside the block; ys continues and crosses
          rw [if_neg hful]
          conv_rhs => rw [absorbInternal]
          rw [if_neg (show ¬i + xs.length + ys.length ≤ sp.parameters.rate by
            simpa using hall)]
          rw [dif_neg (show ¬sp.parameters.rate - (i + xs.length) = 0 by omega)]
          rw [htake, hdrop]
          have hsub : sp.parameters.rate - (i + xs.length) = k - xs.length := by omega
          rw [hsub]
          rw [addBlock_append]
          rw [show sp.parameters.capacity + i + xs.length =
            sp.parameters.capacity + (i + xs.length) by omega]
          rw [PoseidonSponge.permute, PoseidonSponge.permute]
          exact (absorbInternal_mode_irrel
            ⟨sp.parameters, permuteState sp.parameters
              (addBlock (addBlock sp.state (sp.parameters.capacity + i) xs)
                (sp.parameters.capacity + (i + xs.length))
                (List.take (k - xs.length) ys)), sp.mode⟩
            0 _ (.absorbing (i + xs.length)) (show 0 < sp.parameters.rate by
              omega)).symm
      · -- xs itself crosses the block boundary: recurse
        have hk : sp.parameters.rate - i ≠ 0 := by omega
        have hcross : ¬i + (xs ++ ys).length ≤ sp.parameters.rate := by
          simp [List.length_append]; omega
        set k := sp.parameters.rate - i with hkdef
        have hkx : k < xs.length := by omega
        have htake : List.take k (xs ++ ys) = List.take k xs := by
          rw [List.take_append_eq_append_take, show k - xs.length = 0 by omega,
            List.take_zero, List.append_nil]
        have hdrop : List.drop k (xs ++ ys) = List.drop k xs ++ ys := by
          rw [List.drop_append_eq_append_drop, show k - xs.length = 0 by omega,
            List.drop_zero]
        conv_lhs => rw [absorbInternal]
        rw [if_neg hcross, dif_neg hk]
        conv_rhs => rw [absorbInternal]
        rw [if_neg (show ¬i + xs.length ≤ sp.parameters.rate from hfit),
          dif_neg hk]
        rw [htake, hdrop]
        refine ihn (PoseidonSponge.permute { sp with
            state := addBlock sp.state (sp.parameters.capacity + i)
              (List.take k xs) }) 0 (List.drop k xs) ys ?_ ?_
        · simp only [List.length_drop]
          omega
        · show 0 < sp.parameters.rate
          omega

/-- Absorption associativity at the sponge level: two `absorb` calls are one
`absorb` call on the concatenation, for any well-formed sponge state. -/
theorem absorbElems_append (sp : PoseidonSponge F) (xs ys : List F)
    (hwf : sp.wellFormed) :
    absorbElems (absorbElems sp xs) ys = absorbElems sp (xs ++ ys) := by
  obtain ⟨hr, hm⟩ := hwf
  rcases xs with _ | ⟨x, xs'⟩
  · rw [absorbElems_nil, List.nil_append]
  set xs := x :: xs' with hxs
  have hne : xs.isEmpty = false := by simp [hxs]
  have hnee : (xs ++ ys).isEmpty = false := by simp [hxs]
  cases hmode : sp.mode with
  | absorbing j =>
    by_cases hj : j = sp.parameters.rate
    · have h1 : absorbElems sp xs = absorbInternal sp.permute 0 xs := by
        rw [absorbElems, hmode]
        simp [hne, hj]
      have h2 : absorbElems sp (xs ++ ys) = absorbInternal sp.permute 0 (xs ++ ys) := by
        rw [absorbElems, hmode]
        simp [hnee, hj]
      rw [h1, h2]
      exact (absorbInternal_append xs.length sp.permute 0 xs ys le_rfl
        (by simpa using hr)).symm
    · have hjlt : j < sp.parameters.rate := by
        have : j ≤ sp.parameters.rate := by
          simpa [DuplexSpongeMode.cursor, hmode] using hm
        omega
      have h1 : absorbElems sp xs = absorbInternal sp j xs := by
        rw [absorbElems, hmode]
        simp [hne, hj]
      have h2 : absorbElems sp (xs ++ ys) = absorbInternal sp j (xs ++ ys) := by
        rw [absorbElems, hmode]
        simp [hnee, hj]
      rw [h1, h2]
      exact (absorbInternal_append xs.length sp j xs ys le_rfl hjlt).symm
  | squeezing j =>
    have h1 : absorbElems sp xs = absorbInternal sp.permute 0 xs := by
      rw [absorbElems, hmode]
      simp [hne]
    have h2 : absorbElems sp (xs ++ ys) = absorbInternal sp.permute 0 (xs ++ ys) := by
      rw [absorbElems, hmode]
      simp [hnee]
    rw [h1, h2]
    exact (absorbInternal_append xs.length sp.permute 0 xs ys le_rfl
      (by simpa using hr)).symm

/-! ## Value correspondence: gadget operations evaluate like native ones -/

@[simp] theorem FpVarE.val_const (c : F) : (FpVarE.const c).val = c := rfl

@[simp] theorem FpVarE.val_var (v : F) : (FpVarE.var v).val = v := rfl

@[simp] theorem FpVarE.val_addConstant (x : FpVarE F) (k : F) :
    (x.addConstant k).val = x.val + k := by
  cases x <;> rfl

@[simp] theorem FpVarE.val_add (x y : FpVarE F) :
    (x.add y).val = x.val + y.val := by
  cases x <;> cases y <;> rfl

@[simp] theorem FpVarE.val_mulConstant (x : FpVarE F) (k : F) :
    (x.mulConstant k).val = x.val * k := by
  cases x <;> rfl

theorem val_getD (st : List (FpVarE F)) (p : Nat) :
    (st.getD p (.const 0)).val = (st.map FpVarE.val).getD p 0 :=
  (List.getD_map st (.const 0) FpVarE.val).symm

/-- Big-endian bit accumulator: the exponent reached after consuming the bits
on top of an already-consumed exponent. -/
def bitsAcc : List Bool → Nat → Nat
  | [], e => e
  | b :: bs, e => bitsAcc bs (2 * e + (if b then 1 else 0))

theorem bitsAcc_append (l : List Bool) (b : Bool) (e : Nat) :
    bitsAcc (l ++ [b]) e = 2 * bitsAcc l e + (if b then 1 else 0) := by
  induction l generalizing e with
  | nil => rfl
  | cons c l ih => rw [List.cons_append, bitsAcc, bitsAcc, ih]

theorem bitsAcc_reverse_bits (n : Nat) :
    ∀ e, bitsAcc n.bits.reverse e = e * 2 ^ n.bits.length + n := by
  induction n using Nat.binaryRec' with
  | z =>
    intro e
    simp [Nat.zero_bits, bitsAcc]
  | f b n hn ih =>
    intro e
    rw [Nat.bits_append_bit n b hn, List.reverse_cons, bitsAcc_append, ih,
      Nat.bit_val]
    rw [List.length_cons, pow_succ]
    cases b <;> simp [Bool.toNat] <;> ring

theorem bitsAcc_bits (n : Nat) : bitsAcc n.bits.reverse 0 = n := by
  simpa using bitsAcc_reverse_bits n 0

theorem squareVar_val {x y : FpVarE F} {cs cs' : ConstraintSystem F}
    (h : squareVar x cs = .ok y cs') : y.val = x.val * x.val := by
  cases x with
  | const c =>
    rw [squareVar] at h
    cases h
    rfl
  | var v =>
    rw [squareVar] at h
    rcases halloc : cs.alloc false (v * v) with _ | e
    · rw [halloc] at h
      cases h
      rfl
    · rw [halloc] at h
      cases h

theorem mulVar_val {x y z : FpVarE F} {cs cs' : ConstraintSystem F}
    (h : mulVar x y cs = .ok z cs') : z.val = x.val * y.val := by
  cases x with
  | const a =>
    cases y with
    | const b => rw [mulVar] at h; cases h; rfl
    | var v => rw [mulVar] at h; cases h; rfl
  | var v =>
    cases y with
    | const b => rw [mulVar] at h; cases h; rfl
    | var w =>
      rw [mulVar] at h
      rcases halloc : cs.alloc false (v * w) with _ | e
      · rw [halloc] at h
        cases h
        rfl
      · rw [halloc] at h
        cases h

theorem powBitsVar_val (x : FpVarE F) : ∀ (bs : List Bool) (r : FpVarE F)
    (e : Nat) (cs cs' : ConstraintSystem F) (y : FpVarE F),
    r.val = x.val ^ e → powBitsVar x bs r cs = .ok y cs' →
    y.val = x.val ^ bitsAcc bs e := by
  intro bs
  induction bs with
  | nil =>
    intro r e cs cs' y hr h
    rw [powBitsVar] at h
    cases h
    exact hr
  | cons b bs ih =>
    intro r e cs cs' y hr h
    rw [powBitsVar] at h
    cases hsq : squareVar r cs with
    | err e1 =>
      rw [hsq] at h
      cases h
    | ok r2 cs1 =>
      rw [hsq] at h
      have hr2 : r2.val = x.val ^ (2 * e) := by
        rw [squareVar_val hsq, hr, two_mul, pow_add]
      cases b with
      | false =>
        simp only [Bool.false_eq_true, if_false] at h
        simpa [bitsAcc] using ih r2 (2 * e) cs1 cs' y hr2 h
      | true =>
        simp only [if_pos rfl] at h
        cases hmul : mulVar r2 x cs1 with
        | err e2 =>
          rw [hmul] at h
          cases h
        | ok r3 cs2 =>
          rw [hmul] at h
          have hr3 : r3.val = x.val ^ (2 * e + 1) := by
            rw [mulVar_val hmul, hr2, pow_succ]
          simpa [bitsAcc] using ih r3 (2 * e + 1) cs2 cs' y hr3 h

theorem pow_by_constant_val {x y : FpVarE F} {exp : Nat}
    {cs cs' : ConstraintSystem F} (h : pow_by_constant x exp cs = .ok y cs') :
    y.val = x.val ^ exp := by
  rw [pow_by_constant] at h
  have := powBitsVar_val x (Nat.bits exp).reverse (.const 1) 0 cs cs' y
    (by simp) h
  rwa [bitsAcc_bits] at this

@[simp] theorem toNative_parameters (sv : PoseidonSpongeVar F) :
    sv.toNative.parameters = sv.parameters := rfl

@[simp] theorem toNative_mode (sv : PoseidonSpongeVar F) :
    sv.toNative.mode = sv.mode := rfl

@[simp] theorem toNative_state (sv : PoseidonSpongeVar F) :
    sv.toNative.state = sv.state.map FpVarE.val := rfl

theorem addRowVar_map (row : List F) : ∀ (i : Nat) (st : List (FpVarE F)),
    (addRowVar row i st).map FpVarE.val = addRow row i (st.map FpVarE.val) := by
  intro i st
  induction st generalizing i with
  | nil => rfl
  | cons x xs ih =>
    rw [List.map_cons, addRowVar, addRow, List.map_cons, ih]
    simp

theorem applyArkVar_map (cfg : PoseidonConfig F) (r : Nat)
    (st : List (FpVarE F)) :
    (applyArkVar cfg r st).map FpVarE.val = applyArk cfg r (st.map FpVarE.val) :=
  addRowVar_map _ 0 st

theorem dotRowVar_val (row : List F) : ∀ (j : Nat) (st : List (FpVarE F)),
    (dotRowVar row j st).val = dotRow row j (st.map FpVarE.val) := by
  intro j st
  induction st generalizing j with
  | nil => simp [dotRowVar, dotRow]
  | cons x xs ih =>
    rw [List.map_cons, dotRowVar, dotRow]
    simp [ih]

theorem applyMdsVar_map (cfg : PoseidonConfig F) (st : List (FpVarE F)) :
    (applyMdsVar cfg st).map FpVarE.val = applyMds cfg (st.map FpVarE.val) := by
  unfold applyMdsVar applyMds
  rw [List.length_map, List.map_map]
  refine List.map_congr_left ?_
  intro i _
  exact dotRowVar_val _ 0 st

theorem addBlockVar_map : ∀ (es : List (FpVarE F)) (st : List (FpVarE F))
    (p : Nat), (addBlockVar st p es).map FpVarE.val =
      addBlock (st.map FpVarE.val) p (es.map FpVarE.val) := by
  intro es
  induction es with
  | nil => intro st p; rfl
  | cons e es ih =>
    intro st p
    rw [List.map_cons, addBlockVar, addBlock, ih, List.map_set]
    rw [FpVarE.val_add, val_getD]

theorem sboxFullVar_val (alpha : Nat) : ∀ (st : List (FpVarE F))
    (cs cs' : ConstraintSystem F) (ys : List (FpVarE F)),
    sboxFullVar alpha st cs = .ok ys cs' →
    ys.map FpVarE.val = (st.map FpVarE.val).map (fun v => v ^ alpha) := by
  intro st
  induction st with
  | nil =>
    intro cs cs' ys h
    rw [sboxFullVar] at h
    cases h
    rfl
  | cons x xs ih =>
    intro cs cs' ys h
    rw [sboxFullVar] at h
    split at h
    · rename_i y cs1 hp
      split at h
      · rename_i ys2 cs2 hs
        cases h
        rw [List.map_cons, List.map_cons, List.map_cons,
          pow_by_constant_val hp, ih _ _ _ hs]
      · cases h
    · cases h

theorem applySBoxVar_val (cfg : PoseidonConfig F) (full : Bool)
    (st : List (FpVarE F)) (cs cs' : ConstraintSystem F) (ys : List (FpVarE F))
    (h : applySBoxVar cfg full st cs = .ok ys cs') :
    ys.map FpVarE.val = applySBox cfg full (st.map FpVarE.val) := by
  cases full with
  | true =>
    rw [applySBoxVar.eq_def] at h
    rw [applySBox.eq_def, if_pos rfl]
    exact sboxFullVar_val cfg.alpha st cs cs' ys (by simpa using h)
  | false =>
    rw [applySBoxVar.eq_def] at h
    simp only [Bool.false_eq_true, if_false] at h
    rw [applySBox.eq_def]
    simp only [Bool.false_eq_true, if_false]
    split at h
    · cases h
      rfl
    · rename_i x xs
      split at h
      · rename_i y cs1 hp
        cases h
        simp [pow_by_constant_val hp]
      · cases h

theorem roundFnVar_val (cfg : PoseidonConfig F) (full : Bool)
    (st : List (FpVarE F)) (r : Nat) (cs cs' : ConstraintSystem F)
    (st' : List (FpVarE F)) (h : roundFnVar cfg full st r cs = .ok st' cs') :
    st'.map FpVarE.val = roundFn cfg full (st.map FpVarE.val) r := by
  rw [roundFnVar] at h
  split at h
  · rename_i st1 cs1 hs
    cases h
    rw [roundFn, applyMdsVar_map, applySBoxVar_val cfg full _ _ _ _ hs,
      applyArkVar_map]
  · cases h

theorem roundsVar_val (cfg : PoseidonConfig F) (full : Bool) :
    ∀ (rs : List Nat) (st : List (FpVarE F)) (cs cs' : ConstraintSystem F)
    (st' : List (FpVarE F)), roundsVar cfg full rs st cs = .ok st' cs' →
    st'.map FpVarE.val = rs.foldl (roundFn cfg full) (st.map FpVarE.val) := by
  intro rs
  induction rs with
  | nil =>
    intro st cs cs' st' h
    rw [roundsVar] at h
    cases h
    rfl
  | cons r rs ih =>
    intro st cs cs' st' h
    rw [roundsVar] at h
    cases hr : roundFnVar cfg full st r cs with
    | err e => rw [hr] at h; cases h
    | ok st1 cs1 =>
      rw [hr] at h
      rw [List.foldl_cons, ← roundFnVar_val cfg full st r cs cs1 st1 hr]
      exact ih st1 cs1 cs' st' h

theorem permuteState_eq (cfg : PoseidonConfig F) (st : List F) :
    permuteState cfg st =
      (List.range' (cfg.full_rounds / 2 + cfg.partial_rounds)
        (cfg.full_rounds - cfg.full_rounds / 2)).foldl (roundFn cfg true)
        ((List.range' (cfg.full_rounds / 2) cfg.partial_rounds).foldl
          (roundFn cfg false)
          ((List.range (cfg.full_rounds / 2)).foldl (roundFn cfg true) st)) := rfl

theorem permuteVar_toNative {sv sv' : PoseidonSpongeVar F}
    {cs cs' : ConstraintSystem F} (h : sv.permute cs = .ok sv' cs') :
    sv'.toNative = sv.toNative.permute := by
  rw [PoseidonSpongeVar.permute] at h
  split at h
  · rename_i st1 cs1 h1
    split at h
    · rename_i st2 cs2 h2
      split at h
      · rename_i st3 cs3 h3
        cases h
        have e1 := roundsVar_val _ _ _ _ _ _ _ h1
        have e2 := roundsVar_val _ _ _ _ _ _ _ h2
        have e3 := roundsVar_val _ _ _ _ _ _ _ h3
        show (⟨sv.parameters, List.map FpVarE.val st3, sv.mode⟩ :
          PoseidonSponge F) = ⟨sv.parameters,
            permuteState sv.parameters (sv.state.map FpVarE.val), sv.mode⟩
        rw [e3, e2, e1, permuteState_eq]
      · cases h
    · cases h
  · cases h

theorem absorbInternalVar_toNative (sv : PoseidonSpongeVar F) (i : Nat)
    (elems : List (FpVarE F)) (cs : ConstraintSystem F) :
    ∀ {sv' : PoseidonSpongeVar F} {cs' : ConstraintSystem F},
    absorbInternalVar sv i elems cs = .ok sv' cs' →
    sv'.toNative = absorbInternal sv.toNative i (elems.map FpVarE.val) := by
  induction sv, i, elems, cs using absorbInternalVar.induct with
  | case1 sv i elems cs h =>
    intro sv' cs' hok
    rw [absorbInternalVar, if_pos h] at hok
    cases hok
    rw [absorbInternal,
      if_pos (show i + (elems.map FpVarE.val).length ≤
        sv.toNative.parameters.rate by simpa using h)]
    show (⟨sv.parameters,
      (addBlockVar sv.state (sv.parameters.capacity + i) elems).map FpVarE.val,
      .absorbing (i + elems.length)⟩ : PoseidonSponge F) = _
    rw [addBlockVar_map]
    simp [PoseidonSpongeVar.toNative]
  | case2 sv i elems cs h k =>
    rename_i hk
    intro sv' cs' hok
    rw [absorbInternalVar, if_neg h,
      dif_pos (show sv.parameters.rate - i = 0 from hk)] at hok
    cases hok
    rw [absorbInternal,
      if_neg (show ¬i + (elems.map FpVarE.val).length ≤
        sv.toNative.parameters.rate by simpa using h),
      dif_pos (show sv.toNative.parameters.rate - i = 0 from hk)]
  | case3 sv i elems cs h k hknz sv1 cs1 hperm =>
    rename_i ih
    intro sv' cs' hok
    rw [absorbInternalVar, if_neg h,
      dif_neg (show ¬sv.parameters.rate - i = 0 from hknz), hperm] at hok
    rw [absorbInternal,
      if_neg (show ¬i + (elems.map FpVarE.val).length ≤
        sv.toNative.parameters.rate by simpa using h),
      dif_neg (show ¬sv.toNative.parameters.rate - i = 0 from hknz)]
    have hok2 : absorbInternalVar sv1 0
        (List.drop (sv.parameters.rate - i) elems) cs1 = SynRes.ok sv' cs' := hok
    rw [ih hok2, permuteVar_toNative hperm]
    have hst : ({ parameters := sv.parameters,
                  state := addBlockVar sv.state (sv.parameters.capacity + i)
                    (List.take (sv.parameters.rate - i) elems),
                  mode := sv.mode } : PoseidonSpongeVar F).toNative =
        ({ parameters := sv.toNative.parameters,
           state := addBlock sv.toNative.state
             (sv.toNative.parameters.capacity + i)
             (List.take (sv.toNative.parameters.rate - i)
               (elems.map FpVarE.val)),
           mode := sv.toNative.mode } : PoseidonSponge F) := by
      show (⟨sv.parameters, (addBlockVar sv.state (sv.parameters.capacity + i)
        (List.take (sv.parameters.rate - i) elems)).map FpVarE.val, sv.mode⟩ :
          PoseidonSponge F) = _
      rw [addBlockVar_map, List.map_take]
      rfl
    rw [hst, List.map_drop]
    rfl
  | case4 sv i elems cs h k hknz e =>
    rename_i herr
    intro sv' cs' hok
    rw [absorbInternalVar, if_neg h,
      dif_neg (show ¬sv.parameters.rate - i = 0 from hknz), herr] at hok
    cases hok

theorem absorbVar_toNative {sv sv' : PoseidonSpongeVar F}
    {elems : List (FpVarE F)} {cs cs' : ConstraintSystem F}
    (h : sv.absorb elems cs = .ok sv' cs') :
    sv'.toNative = absorbElems sv.toNative (elems.map FpVarE.val) := by
  rw [PoseidonSpongeVar.absorb] at h
  rw [absorbElems.eq_def]
  by_cases he : elems.isEmpty
  · rw [if_pos he] at h
    cases h
    rw [if_pos (show (elems.map FpVarE.val).isEmpty = true by
      cases elems with
      | nil => rfl
      | cons a l => cases he)]
  · rw [if_neg he] at h
    rw [if_neg (show ¬(elems.map FpVarE.val).isEmpty = true by
      cases elems with
      | nil => exact absurd rfl he
      | cons a l => simp)]
    cases hm : sv.mode with
    | absorbing j =>
      simp only [hm] at h
      simp only [toNative_mode, hm]
      by_cases hj : j = sv.parameters.rate
      · rw [if_pos hj] at h
        rw [if_pos (show j = sv.toNative.parameters.rate from hj)]
        split at h
        · rename_i sv1 cs1 hperm
          rw [absorbInternalVar_toNative _ _ _ _ h, permuteVar_toNative hperm]
        · cases h
      · rw [if_neg hj] at h
        rw [if_neg (show ¬j = sv.toNative.parameters.rate from hj)]
        exact absorbInternalVar_toNative _ _ _ _ h
    | squeezing j =>
      simp only [hm] at h
      simp only [toNative_mode, hm]
      split at h
      · rename_i sv1 cs1 hperm
        rw [absorbInternalVar_toNative _ _ _ _ h, permuteVar_toNative hperm]
      · cases h

theorem squeezeInternalVar_toNative (sv : PoseidonSpongeVar F) (i k : Nat)
    (cs : ConstraintSystem F) :
    ∀ {p : List (FpVarE F) × PoseidonSpongeVar F} {cs' : ConstraintSystem F},
    squeezeInternalVar sv i k cs = .ok p cs' →
    p.1.map FpVarE.val = (squeezeInternal sv.toNative i k).1 ∧
    p.2.toNative = (squeezeInternal sv.toNative i k).2 := by
  induction sv, i, k, cs using squeezeInternalVar.induct with
  | case1 sv i k cs h =>
    intro p cs' hok
    rw [squeezeInternalVar, if_pos h] at hok
    cases hok
    rw [squeezeInternal, if_pos (show i + k ≤ sv.toNative.parameters.rate from h)]
    constructor
    · rw [List.map_map]
      refine List.map_congr_left ?_
      intro a _
      exact val_getD _ _
    · rfl
  | case2 sv i k cs h kk =>
    rename_i hk0
    intro p cs' hok
    rw [squeezeInternalVar, if_neg h,
      dif_pos (show sv.parameters.rate - i = 0 from hk0)] at hok
    cases hok
    rw [squeezeInternal, if_neg (show ¬i + k ≤ sv.toNative.parameters.rate from h),
      dif_pos (show sv.toNative.parameters.rate - i = 0 from hk0)]
    exact ⟨rfl, rfl⟩
  | case3 sv i k cs h kk hknz hne sv1 cs1 hperm p2 cs2 hrec =>
    rename_i ih
    intro p cs' hok
    rw [squeezeInternalVar, if_neg h,
      dif_neg (show ¬sv.parameters.rate - i = 0 from hknz), if_pos hne,
      hperm] at hok
    have hok2 : (match squeezeInternalVar sv1 0 (k - kk) cs1 with
      | SynRes.ok q cs2 => SynRes.ok
          ((List.range (sv.parameters.rate - i)).map
            (fun j => sv.state.getD (sv.parameters.capacity + i + j)
              (FpVarE.const 0)) ++ q.1, q.2) cs2
      | SynRes.err e => SynRes.err e) = SynRes.ok p cs' := hok
    rw [hrec] at hok2
    have hok3 : SynRes.ok
        ((List.range (sv.parameters.rate - i)).map
          (fun j => sv.state.getD (sv.parameters.capacity + i + j)
            (FpVarE.const 0)) ++ p2.1, p2.2) cs2 = SynRes.ok p cs' := hok2
    cases hok3
    obtain ⟨e1, e2⟩ := ih hrec
    rw [show kk = sv.parameters.rate - i from rfl] at e1 e2
    rw [permuteVar_toNative hperm] at e1 e2
    rw [squeezeInternal, if_neg (show ¬i + k ≤ sv.toNative.parameters.rate from h),
      dif_neg (show ¬sv.toNative.parameters.rate - i = 0 from hknz),
      if_pos (show k ≠ sv.toNative.parameters.rate from hne)]
    simp only [toNative_parameters, toNative_state]
    constructor
    · rw [List.map_append, List.map_map]
      have hblock : ((List.range (sv.parameters.rate - i)).map
          (FpVarE.val ∘ fun j =>
            sv.state.getD (sv.parameters.capacity + i + j) (.const 0))) =
          ((List.range (sv.parameters.rate - i)).map
            (fun j => (sv.state.map FpVarE.val).getD
              (sv.parameters.capacity + i + j) 0)) := by
        refine List.map_congr_left ?_
        intro a _
        exact val_getD _ _
      rw [hblock, e1]
    · exact e2
  | case4 sv i k cs h kk hknz hne sv1 cs1 hperm e =>
    rename_i herr ih
    intro p cs' hok
    rw [squeezeInternalVar, if_neg h,
      dif_neg (show ¬sv.parameters.rate - i = 0 from hknz), if_pos hne,
      hperm] at hok
    have hok2 : (match squeezeInternalVar sv1 0 (k - kk) cs1 with
      | SynRes.ok q cs2 => SynRes.ok
          ((List.range (sv.parameters.rate - i)).map
            (fun j => sv.state.getD (sv.parameters.capacity + i + j)
              (FpVarE.const 0)) ++ q.1, q.2) cs2
      | SynRes.err e => SynRes.err e) = SynRes.ok p cs' := hok
    rw [herr] at hok2
    cases hok2
  | case5 sv i k cs h kk hknz hne e =>
    rename_i herr
    intro p cs' hok
    rw [squeezeInternalVar, if_neg h,
      dif_neg (show ¬sv.parameters.rate - i = 0 from hknz), if_pos hne,
      herr] at hok
    cases hok
  | case6 sv i k cs h kk hknz hne p2 cs2 hrec =>
    rename_i ih
    intro p cs' hok
    rw [squeezeInternalVar, if_neg h,
      dif_neg (show ¬sv.parameters.rate - i = 0 from hknz), if_neg hne,
      hrec] at hok
    cases hok
    obtain ⟨e1, e2⟩ := ih hrec
    rw [show kk = sv.parameters.rate - i from rfl] at e1 e2
    rw [squeezeInternal, if_neg (show ¬i + k ≤ sv.toNative.parameters.rate from h),
      dif_neg (show ¬sv.toNative.parameters.rate - i = 0 from hknz),
      if_neg (show ¬k ≠ sv.toNative.parameters.rate from hne)]
    simp only [toNative_parameters, toNative_state]
    constructor
    · rw [List.map_append, List.map_map]
      have hblock : ((List.range (sv.parameters.rate - i)).map
          (FpVarE.val ∘ fun j =>
            sv.state.getD (sv.parameters.capacity + i + j) (.const 0))) =
          ((List.range (sv.parameters.rate - i)).map
            (fun j => (sv.state.map FpVarE.val).getD
              (sv.parameters.capacity + i + j) 0)) := by
        refine List.map_congr_left ?_
        intro a _
        exact val_getD _ _
      rw [hblock, e1]
    · exact e2
  | case7 sv i k cs h kk hknz hne e hrec =>
    rename_i ih
    intro p cs' hok
    rw [squeezeInternalVar, if_neg h,
      dif_neg (show ¬sv.parameters.rate - i = 0 from hknz), if_neg hne,
      hrec] at hok
    cases hok

theorem squeezeFieldElementsVar_toNative {sv : PoseidonSpongeVar F} {n : Nat}
    {cs cs' : ConstraintSystem F} {p : List (FpVarE F) × PoseidonSpongeVar F}
    (h : squeezeFieldElementsVar sv n cs = .ok p cs') :
    p.1.map FpVarE.val = (squeezeFieldElements sv.toNative n).1 ∧
    p.2.toNative = (squeezeFieldElements sv.toNative n).2 := by
  rw [squeezeFieldElementsVar] at h
  rw [squeezeFieldElements.eq_def]
  cases hm : sv.mode with
  | absorbing j =>
    simp only [hm] at h
    simp only [toNative_mode, hm]
    split at h
    · rename_i sv1 cs1 hperm
      obtain ⟨e1, e2⟩ := squeezeInternalVar_toNative _ _ _ _ h
      rw [e1, e2, permuteVar_toNative hperm]
      exact ⟨rfl, rfl⟩
    · cases h
  | squeezing j =>
    simp only [hm] at h
    simp only [toNative_mode, hm]
    by_cases hj : j = sv.parameters.rate
    · rw [if_pos hj] at h
      rw [if_pos (show j = sv.toNative.parameters.rate from hj)]
      split at h
      · rename_i sv1 cs1 hperm
        obtain ⟨e1, e2⟩ := squeezeInternalVar_toNative _ _ _ _ h
        rw [e1, e2, permuteVar_toNative hperm]
        exact ⟨rfl, rfl⟩
      · cases h
    · rw [if_neg hj] at h
      rw [if_neg (show ¬j = sv.toNative.parameters.rate from hj)]
      exact squeezeInternalVar_toNative _ _ _ _ h

/-! ## Success on an unbounded constraint system -/

theorem alloc_none {cs : ConstraintSystem F} (h : cs.budget = none) (b : Bool)
    (v : F) : ∃ cs', cs.alloc b v = .ok () cs' ∧ cs'.budget = none := by
  cases b with
  | true =>
    refine ⟨{ cs with inputValues := cs.inputValues ++ [v] }, ?_, h⟩
    simp [ConstraintSystem.alloc, h]
  | false =>
    refine ⟨{ cs with witnessValues := cs.witnessValues ++ [v] }, ?_, h⟩
    simp [ConstraintSystem.alloc, h]

theorem squareVar_none {cs : ConstraintSystem F} (h : cs.budget = none)
    (x : FpVarE F) : ∃ y cs', squareVar x cs = .ok y cs' ∧ cs'.budget = none := by
  cases x with
  | const c => exact ⟨_, _, rfl, h⟩
  | var v =>
    obtain ⟨cs', ha, hb⟩ := alloc_none h false (v * v)
    exact ⟨_, cs', by rw [squareVar, ha], hb⟩

theorem mulVar_none {cs : ConstraintSystem F} (h : cs.budget = none)
    (x y : FpVarE F) : ∃ z cs', mulVar x y cs = .ok z cs' ∧ cs'.budget = none := by
  cases x with
  | const a =>
    cases y with
    | const b => exact ⟨_, _, rfl, h⟩
    | var v => exact ⟨_, _, rfl, h⟩
  | var v =>
    cases y with
    | const b => exact ⟨_, _, rfl, h⟩
    | var w =>
      obtain ⟨cs', ha, hb⟩ := alloc_none h false (v * w)
      exact ⟨_, cs', by rw [mulVar, ha], hb⟩

theorem powBitsVar_none (x : FpVarE F) : ∀ (bs : List Bool) (r : FpVarE F)
    (cs : ConstraintSystem F), cs.budget = none →
    ∃ y cs', powBitsVar x bs r cs = .ok y cs' ∧ cs'.budget = none := by
  intro bs
  induction bs with
  | nil => intro r cs h; exact ⟨r, cs, rfl, h⟩
  | cons b bs ih =>
    intro r cs h
    obtain ⟨r2, cs1, hsq, h1⟩ := squareVar_none h r
    cases b with
    | false =>
      obtain ⟨y, cs', hp, h2⟩ := ih r2 cs1 h1
      exact ⟨y, cs', by rw [powBitsVar, hsq]; simpa using hp, h2⟩
    | true =>
      obtain ⟨r3, cs2, hmul, h2⟩ := mulVar_none h1 r2 x
      obtain ⟨y, cs', hp, h3⟩ := ih r3 cs2 h2
      exact ⟨y, cs', by rw [powBitsVar, hsq]; simpa [hmul] using hp, h3⟩

theorem pow_by_constant_none {cs : ConstraintSystem F} (h : cs.budget = none)
    (x : FpVarE F) (exp : Nat) :
    ∃ y cs', pow_by_constant x exp cs = .ok y cs' ∧ cs'.budget = none :=
  powBitsVar_none x _ _ cs h

theorem sboxFullVar_none (alpha : Nat) : ∀ (st : List (FpVarE F))
    (cs : ConstraintSystem F), cs.budget = none →
    ∃ ys cs', sboxFullVar alpha st cs = .ok ys cs' ∧ cs'.budget = none := by
  intro st
  induction st with
  | nil => intro cs h; exact ⟨[], cs, rfl, h⟩
  | cons x xs ih =>
    intro cs h
    obtain ⟨y, cs1, hp, h1⟩ := pow_by_constant_none h x alpha
    obtain ⟨ys, cs', hs, h2⟩ := ih cs1 h1
    exact ⟨y :: ys, cs', by rw [sboxFullVar]; simp only [hp, hs], h2⟩

theorem applySBoxVar_none (cfg : PoseidonConfig F) (full : Bool)
    (st : List (FpVarE F)) (cs : ConstraintSystem F) (h : cs.budget = none) :
    ∃ ys cs', applySBoxVar cfg full st cs = .ok ys cs' ∧ cs'.budget = none := by
  cases full with
  | true =>
    obtain ⟨ys, cs', hs, h2⟩ := sboxFullVar_none cfg.alpha st cs h
    exact ⟨ys, cs', by rw [applySBoxVar.eq_def]; simpa using hs, h2⟩
  | false =>
    cases st with
    | nil => exact ⟨[], cs, by rw [applySBoxVar.eq_def]; simp, h⟩
    | cons x xs =>
      obtain ⟨y, cs1, hp, h1⟩ := pow_by_constant_none h x cfg.alpha
      exact ⟨y :: xs, cs1, by rw [applySBoxVar.eq_def]; simp [hp], h1⟩

theorem roundFnVar_none (cfg : PoseidonConfig F) (full : Bool)
    (st : List (FpVarE F)) (r : Nat) (cs : ConstraintSystem F)
    (h : cs.budget = none) :
    ∃ st' cs', roundFnVar cfg full st r cs = .ok st' cs' ∧ cs'.budget = none := by
  obtain ⟨st1, cs1, hs, h1⟩ := applySBoxVar_none cfg full (applyArkVar cfg r st) cs h
  exact ⟨applyMdsVar cfg st1, cs1, by rw [roundFnVar, hs], h1⟩

theorem roundsVar_none (cfg : PoseidonConfig F) (full : Bool) :
    ∀ (rs : List Nat) (st : List (FpVarE F)) (cs : ConstraintSystem F),
    cs.budget = none →
    ∃ st' cs', roundsVar cfg full rs st cs = .ok st' cs' ∧ cs'.budget = none := by
  intro rs
  induction rs with
  | nil => intro st cs h; exact ⟨st, cs, rfl, h⟩
  | cons r rs ih =>
    intro st cs h
    obtain ⟨st1, cs1, hr, h1⟩ := roundFnVar_none cfg full st r cs h
    obtain ⟨st', cs', hs, h2⟩ := ih st1 cs1 h1
    exact ⟨st', cs', by rw [roundsVar]; simp only [hr]; exact hs, h2⟩

theorem permuteVar_none (sv : PoseidonSpongeVar F) {cs : ConstraintSystem F}
    (h : cs.budget = none) :
    ∃ sv' cs', sv.permute cs = .ok sv' cs' ∧ cs'.budget = none := by
  obtain ⟨st1, cs1, h1, hb1⟩ := roundsVar_none sv.parameters true
    (List.range (sv.parameters.full_rounds / 2)) sv.state cs h
  obtain ⟨st2, cs2, h2, hb2⟩ := roundsVar_none sv.parameters false
    (List.range' (sv.parameters.full_rounds / 2) sv.parameters.partial_rounds)
    st1 cs1 hb1
  obtain ⟨st3, cs3, h3, hb3⟩ := roundsVar_none sv.parameters true
    (List.range' (sv.parameters.full_rounds / 2 + sv.parameters.partial_rounds)
      (sv.parameters.full_rounds - sv.parameters.full_rounds / 2)) st2 cs2 hb2
  exact ⟨{ sv with state := st3 }, cs3,
    by rw [PoseidonSpongeVar.permute]; simp only [h1, h2, h3], hb3⟩

theorem absorbInternalVar_none (sv : PoseidonSpongeVar F) (i : Nat)
    (elems : List (FpVarE F)) (cs : ConstraintSystem F) :
    cs.budget = none →
    ∃ sv' cs', absorbInternalVar sv i elems cs = .ok sv' cs' ∧
      cs'.budget = none := by
  induction sv, i, elems, cs using absorbInternalVar.induct with
  | case1 sv i elems cs h =>
    intro hb
    exact ⟨_, cs, by rw [absorbInternalVar, if_pos h], hb⟩
  | case2 sv i elems cs h k =>
    rename_i hk
    intro hb
    exact ⟨sv, cs, by
      rw [absorbInternalVar, if_neg h,
        dif_pos (show sv.parameters.rate - i = 0 from hk)], hb⟩
  | case3 sv i elems cs h k hknz sv1 cs1 hperm =>
    rename_i ih
    intro hb
    have hb1 : cs1.budget = none := by
      obtain ⟨sv2, cs2, hp2, hbp⟩ := permuteVar_none
        { sv with state := addBlockVar sv.state (sv.parameters.capacity + i)
                    (List.take (sv.parameters.rate - i) elems) } hb
      rw [hp2] at hperm
      cases hperm
      exact hbp
    obtain ⟨sv', cs', hrec, hb'⟩ := ih hb1
    refine ⟨sv', cs', ?_, hb'⟩
    rw [absorbInternalVar, if_neg h,
      dif_neg (show ¬sv.parameters.rate - i = 0 from hknz), hperm]
    exact hrec
  | case4 sv i elems cs h k hknz e =>
    rename_i herr
    intro hb
    obtain ⟨sv2, cs2, hp2, _⟩ := permuteVar_none
      { sv with state := addBlockVar sv.state (sv.parameters.capacity + i)
                  (List.take (sv.parameters.rate - i) elems) } hb
    rw [hp2] at herr
    cases herr

theorem absorbVar_none {sv : PoseidonSpongeVar F} {elems : List (FpVarE F)}
    {cs : ConstraintSystem F} (h : cs.budget = none) :
    ∃ sv' cs', sv.absorb elems cs = .ok sv' cs' ∧ cs'.budget = none := by
  rw [PoseidonSpongeVar.absorb]
  by_cases he : elems.isEmpty
  · rw [if_pos he]
    exact ⟨sv, cs, rfl, h⟩
  · rw [if_neg he]
    cases hm : sv.mode with
    | absorbing j =>
      by_cases hj : j = sv.parameters.rate
      · obtain ⟨sv1, cs1, hp, hb1⟩ := permuteVar_none sv h
        obtain ⟨sv', cs', ha, hb'⟩ := absorbInternalVar_none sv1 0 elems cs1 hb1
        exact ⟨sv', cs', by
          simp only [hm, if_pos hj, hp]
          exact ha, hb'⟩
      · obtain ⟨sv', cs', ha, hb'⟩ := absorbInternalVar_none sv j elems cs h
        exact ⟨sv', cs', by simp only [hm, if_neg hj]; exact ha, hb'⟩
    | squeezing j =>
      obtain ⟨sv1, cs1, hp, hb1⟩ := permuteVar_none sv h
      obtain ⟨sv', cs', ha, hb'⟩ := absorbInternalVar_none sv1 0 elems cs1 hb1
      exact ⟨sv', cs', by
        simp only [hm, hp]
        exact ha, hb'⟩

theorem squeezeInternalVar_none (sv : PoseidonSpongeVar F) (i k : Nat)
    (cs : ConstraintSystem F) : cs.budget = none →
    ∃ p cs', squeezeInternalVar sv i k cs = .ok p cs' ∧ cs'.budget = none := by
  induction sv, i, k, cs using squeezeInternalVar.induct with
  | case1 sv i k cs h =>
    intro hb
    exact ⟨_, cs, by rw [squeezeInternalVar, if_pos h], hb⟩
  | case2 sv i k cs h kk =>
    rename_i hk0
    intro hb
    exact ⟨([], sv), cs, by
      rw [squeezeInternalVar, if_neg h,
        dif_pos (show sv.parameters.rate - i = 0 from hk0)], hb⟩
  | case3 sv i k cs h kk hknz hne sv1 cs1 hperm p2 cs2 hrec =>
    rename_i ih
    intro hb
    have hb1 : cs1.budget = none := by
      obtain ⟨sv2, cs2', hp2, hbp⟩ := permuteVar_none sv hb
      rw [hp2] at hperm
      cases hperm
      exact hbp
    obtain ⟨p3, cs3, hr3, hb3⟩ := ih hb1
    refine ⟨((List.range (sv.parameters.rate - i)).map
      (fun j => sv.state.getD (sv.parameters.capacity + i + j) (FpVarE.const 0))
        ++ p3.1, p3.2), cs3, ?_, hb3⟩
    rw [squeezeInternalVar, if_neg h,
      dif_neg (show ¬sv.parameters.rate - i = 0 from hknz), if_pos hne]
    simp only [hperm, hr3]
  | case4 sv i k cs h kk hknz hne sv1 cs1 hperm e =>
    rename_i herr ih
    intro hb
    have hb1 : cs1.budget = none := by
      obtain ⟨sv2, cs2', hp2, hbp⟩ := permuteVar_none sv hb
      rw [hp2] at hperm
      cases hperm
      exact hbp
    obtain ⟨p3, cs3, hr3, hb3⟩ := ih hb1
    rw [hr3] at herr
    cases herr
  | case5 sv i k cs h kk hknz hne e =>
    rename_i herr
    intro hb
    obtain ⟨sv2, cs2', hp2, _⟩ := permuteVar_none sv hb
    rw [hp2] at herr
    cases herr
  | case6 sv i k cs h kk hknz hne p2 cs2 hrec =>
    rename_i ih
    intro hb
    obtain ⟨p3, cs3, hr3, hb3⟩ := ih hb
    refine ⟨((List.range (sv.parameters.rate - i)).map
      (fun j => sv.state.getD (sv.parameters.capacity + i + j) (FpVarE.const 0))
        ++ p3.1, p3.2), cs3, ?_, hb3⟩
    rw [squeezeInternalVar, if_neg h,
      dif_neg (show ¬sv.parameters.rate - i = 0 from hknz), if_neg hne]
    simp only [hr3]
  | case7 sv i k cs h kk hknz hne e hrec =>
    rename_i ih
    intro hb
    obtain ⟨p3, cs3, hr3, hb3⟩ := ih hb
    rw [hr3] at hrec
    cases hrec

theorem squeezeFieldElementsVar_none {sv : PoseidonSpongeVar F} {n : Nat}
    {cs : ConstraintSystem F} (h : cs.budget = none) :
    ∃ p cs', squeezeFieldElementsVar sv n cs = .ok p cs' ∧
      cs'.budget = none := by
  rw [squeezeFieldElementsVar]
  cases hm : sv.mode with
  | absorbing j =>
    obtain ⟨sv1, cs1, hp, hb1⟩ := permuteVar_none sv h
    obtain ⟨p, cs', hs, hb'⟩ := squeezeInternalVar_none sv1 0 n cs1 hb1
    exact ⟨p, cs', by
      simp only [hm, hp]
      exact hs, hb'⟩
  | squeezing j =>
    by_cases hj : j = sv.parameters.rate
    · obtain ⟨sv1, cs1, hp, hb1⟩ := permuteVar_none sv h
      obtain ⟨p, cs', hs, hb'⟩ := squeezeInternalVar_none sv1 0 n cs1 hb1
      exact ⟨p, cs', by
        simp only [hm, if_pos hj, hp]
        exact hs, hb'⟩
    · obtain ⟨p, cs', hs, hb'⟩ := squeezeInternalVar_none sv j n cs h
      exact ⟨p, cs', by simp only [hm, if_neg hj]; exact hs, hb'⟩

/-! ## Allocation phases -/

theorem newWitnessVar_none {cs : ConstraintSystem F} (h : cs.budget = none)
    (v : F) : newWitnessVar v cs =
      .ok (.var v) { cs with witnessValues := cs.witnessValues ++ [v] } := by
  rw [newWitnessVar]
  simp [ConstraintSystem.alloc, h]

theorem newInputVar_none {cs : ConstraintSystem F} (h : cs.budget = none)
    (v : F) : newInputVar v cs =
      .ok (.var v) { cs with inputValues := cs.inputValues ++ [v] } := by
  rw [newInputVar]
  simp [ConstraintSystem.alloc, h]

theorem allocWitnesses_none : ∀ (xs : List F) (cs : ConstraintSystem F),
    cs.budget = none →
    ∃ vars cs', allocWitnesses xs cs = .ok vars cs' ∧
      vars.map FpVarE.val = xs ∧
      cs' = { cs with witnessValues := cs.witnessValues ++ xs } := by
  intro xs
  induction xs with
  | nil =>
    intro cs h
    exact ⟨[], cs, rfl, rfl, by simp⟩
  | cons x xs ih =>
    intro cs h
    obtain ⟨vars, cs', hw, hv, hcs⟩ :=
      ih { cs with witnessValues := cs.witnessValues ++ [x] } h
    refine ⟨.var x :: vars, cs', ?_, by simp [hv], ?_⟩
    · rw [allocWitnesses]
      simp only [newWitnessVar_none h x, hw]
    · rw [hcs]
      simp

theorem allocWitnesses_fail : ∀ (xs : List F) (cs : ConstraintSystem F)
    (b : Nat), cs.budget = some b → b < xs.length →
    allocWitnesses xs cs = .err .allocationRejected := by
  intro xs
  induction xs with
  | nil =>
    intro cs b _ hb
    exact absurd hb (by simp)
  | cons x xs ih =>
    intro cs b hbud hb
    cases b with
    | zero =>
      rw [allocWitnesses, newWitnessVar]
      simp [ConstraintSystem.alloc, hbud]
    | succ b =>
      have halloc : cs.alloc false x = .ok ()
          { cs with witnessValues := cs.witnessValues ++ [x],
                    budget := some b } := by
        simp [ConstraintSystem.alloc, hbud]
      have hrec := ih
        { cs with witnessValues := cs.witnessValues ++ [x], budget := some b }
        b rfl (by simpa using Nat.lt_of_succ_lt_succ hb)
      rw [allocWitnesses, newWitnessVar]
      simp only [halloc, hrec]

theorem allocInputsUnwrap_none : ∀ (fs : List F) (cs : ConstraintSystem F),
    cs.budget = none →
    ∃ vars cs', allocInputsUnwrap fs cs = .ok vars cs' ∧
      vars.map FpVarE.val = fs ∧
      cs' = { cs with inputValues := cs.inputValues ++ fs } := by
  intro fs
  induction fs with
  | nil =>
    intro cs h
    exact ⟨[], cs, rfl, rfl, by simp⟩
  | cons f fs ih =>
    intro cs h
    obtain ⟨vars, cs', hw, hv, hcs⟩ :=
      ih { cs with inputValues := cs.inputValues ++ [f] } h
    refine ⟨.var f :: vars, cs', ?_, by simp [hv], ?_⟩
    · rw [allocInputsUnwrap]
      simp only [newInputVar_none h f, hw]
    · rw [hcs]
      simp

theorem allocInputsUnwrap_panic : ∀ (fs : List F) (cs : ConstraintSystem F),
    cs.budget = some 0 → fs ≠ [] →
    allocInputsUnwrap fs cs =
      .panicked "called Result::unwrap() on an Err value" := by
  intro fs cs hbud hne
  cases fs with
  | nil => exact absurd rfl hne
  | cons f fs =>
    rw [allocInputsUnwrap, newInputVar]
    simp [ConstraintSystem.alloc, hbud]

/-! ## Constant states allocate nothing -/

theorem powBitsVar_const (a : F) : ∀ (bs : List Bool) (r : F)
    (cs : ConstraintSystem F),
    ∃ c, powBitsVar (FpVarE.const a) bs (.const r) cs = .ok (.const c) cs := by
  intro bs
  induction bs with
  | nil => intro r cs; exact ⟨r, rfl⟩
  | cons b bs ih =>
    intro r cs
    cases b with
    | false =>
      obtain ⟨c, hc⟩ := ih (r * r) cs
      exact ⟨c, by rw [powBitsVar]; simpa using hc⟩
    | true =>
      obtain ⟨c, hc⟩ := ih (r * r * a) cs
      exact ⟨c, by rw [powBitsVar]; simpa using hc⟩

theorem pow_by_constant_const (a : F) (exp : Nat) (cs : ConstraintSystem F) :
    ∃ c, pow_by_constant (FpVarE.const a) exp cs = .ok (.const c) cs :=
  powBitsVar_const a _ 1 cs

/-- Every element of the list is a compile-time constant. -/
def allConst (st : List (FpVarE F)) : Prop :=
  ∀ x ∈ st, ∃ c, x = FpVarE.const c

theorem sboxFullVar_const (alpha : Nat) : ∀ (st : List (FpVarE F))
    (cs : ConstraintSystem F), allConst st →
    ∃ st', sboxFullVar alpha st cs = .ok st' cs ∧ allConst st' := by
  intro st
  induction st with
  | nil => intro cs _; exact ⟨[], rfl, by intro x hx; cases hx⟩
  | cons x xs ih =>
    intro cs hc
    obtain ⟨a, ha⟩ := hc x (by simp)
    subst ha
    obtain ⟨c, hcpow⟩ := pow_by_constant_const a alpha cs
    obtain ⟨st', hst, hconst⟩ := ih cs (fun y hy => hc y (by simp [hy]))
    refine ⟨.const c :: st', ?_, ?_⟩
    · rw [sboxFullVar]
      simp only [hcpow, hst]
    · intro y hy
      rcases List.mem_cons.mp hy with hy | hy
      · exact ⟨c, hy⟩
      · exact hconst y hy

theorem applySBoxVar_const (cfg : PoseidonConfig F) (full : Bool)
    (st : List (FpVarE F)) (cs : ConstraintSystem F) (hc : allConst st) :
    ∃ st', applySBoxVar cfg full st cs = .ok st' cs ∧ allConst st' := by
  cases full with
  | true =>
    obtain ⟨st', hst, hconst⟩ := sboxFullVar_const cfg.alpha st cs hc
    exact ⟨st', by rw [applySBoxVar.eq_def]; simpa using hst, hconst⟩
  | false =>
    cases st with
    | nil =>
      exact ⟨[], by rw [applySBoxVar.eq_def]; simp, by intro x hx; cases hx⟩
    | cons x xs =>
      obtain ⟨a, ha⟩ := hc x (by simp)
      subst ha
      obtain ⟨c, hcpow⟩ := pow_by_constant_const a cfg.alpha cs
      refine ⟨.const c :: xs, ?_, ?_⟩
      · rw [applySBoxVar.eq_def]
        simp [hcpow]
      · intro y hy
        rcases List.mem_cons.mp hy with hy | hy
        · exact ⟨c, hy⟩
        · exact hc y (by simp [hy])

theorem addRowVar_const (row : List F) : ∀ (i : Nat) (st : List (FpVarE F)),
    allConst st → allConst (addRowVar row i st) := by
  intro i st
  induction st generalizing i with
  | nil => intro _; intro x hx; cases hx
  | cons x xs ih =>
    intro hc y hy
    rw [addRowVar] at hy
    rcases List.mem_cons.mp hy with hy | hy
    · obtain ⟨a, ha⟩ := hc x (by simp)
      exact ⟨a + row.getD i 0, by rw [hy, ha]; rfl⟩
    · exact ih (i + 1) (fun z hz => hc z (by simp [hz])) y hy

theorem dotRowVar_const (row : List F) : ∀ (j : Nat) (st : List (FpVarE F)),
    allConst st → ∃ c, dotRowVar row j st = FpVarE.const c := by
  intro j st
  induction st generalizing j with
  | nil => intro _; exact ⟨0, rfl⟩
  | cons x xs ih =>
    intro hc
    obtain ⟨a, ha⟩ := hc x (by simp)
    obtain ⟨c, hcrest⟩ := ih (j + 1) (fun z hz => hc z (by simp [hz]))
    subst ha
    exact ⟨a * row.getD j 0 + c, by rw [dotRowVar, hcrest]; rfl⟩

theorem applyMdsVar_const (cfg : PoseidonConfig F) (st : List (FpVarE F))
    (hc : allConst st) : allConst (applyMdsVar cfg st) := by
  intro y hy
  rw [applyMdsVar] at hy
  obtain ⟨i, _, hi⟩ := List.mem_map.mp hy
  obtain ⟨c, hcd⟩ := dotRowVar_const (cfg.mds.getD i []) 0 st hc
  exact ⟨c, by rw [← hi, hcd]⟩

theorem roundFnVar_const (cfg : PoseidonConfig F) (full : Bool)
    (st : List (FpVarE F)) (r : Nat) (cs : ConstraintSystem F)
    (hc : allConst st) :
    ∃ st', roundFnVar cfg full st r cs = .ok st' cs ∧ allConst st' := by
  obtain ⟨st1, hst1, hconst1⟩ := applySBoxVar_const cfg full
    (applyArkVar cfg r st) cs (addRowVar_const _ 0 st hc)
  exact ⟨applyMdsVar cfg st1, by rw [roundFnVar]; simp only [hst1],
    applyMdsVar_const cfg st1 hconst1⟩

theorem roundsVar_const (cfg : PoseidonConfig F) (full : Bool) :
    ∀ (rs : List Nat) (st : List (FpVarE F)) (cs : ConstraintSystem F),
    allConst st →
    ∃ st', roundsVar cfg full rs st cs = .ok st' cs ∧ allConst st' := by
  intro rs
  induction rs with
  | nil => intro st cs hc; exact ⟨st, rfl, hc⟩
  | cons r rs ih =>
    intro st cs hc
    obtain ⟨st1, hst1, hconst1⟩ := roundFnVar_const cfg full st r cs hc
    obtain ⟨st', hst', hconst'⟩ := ih st1 cs hconst1
    exact ⟨st', by rw [roundsVar]; simp only [hst1, hst'], hconst'⟩

theorem permuteVar_const (sv : PoseidonSpongeVar F) (cs : ConstraintSystem F)
    (hc : allConst sv.state) :
    ∃ st', sv.permute cs = .ok { sv with state := st' } cs ∧ allConst st' := by
  obtain ⟨st1, h1, hc1⟩ := roundsVar_const sv.parameters true
    (List.range (sv.parameters.full_rounds / 2)) sv.state cs hc
  obtain ⟨st2, h2, hc2⟩ := roundsVar_const sv.parameters false
    (List.range' (sv.parameters.full_rounds / 2) sv.parameters.partial_rounds)
    st1 cs hc1
  obtain ⟨st3, h3, hc3⟩ := roundsVar_const sv.parameters true
    (List.range' (sv.parameters.full_rounds / 2 + sv.parameters.partial_rounds)
      (sv.parameters.full_rounds - sv.parameters.full_rounds / 2)) st2 cs hc2
  exact ⟨st3, by rw [PoseidonSpongeVar.permute]; simp only [h1, h2, h3], hc3⟩

/-! ## The repository wrapper loops -/

theorem absorbManyLoopVar_none : ∀ (elems : List (FpVarE F))
    (sv : PoseidonSpongeVar F) (cs : ConstraintSystem F), cs.budget = none →
    ∃ sv' cs', absorbManyLoopVar sv elems cs = .ok sv' cs' ∧
      cs'.budget = none ∧
      sv'.toNative = (elems.map FpVarE.val).foldl
        (fun sp v => absorbElems sp [v]) sv.toNative := by
  intro elems
  induction elems with
  | nil => intro sv cs h; exact ⟨sv, cs, rfl, h, rfl⟩
  | cons e es ih =>
    intro sv cs h
    obtain ⟨sv1, cs1, ha, hb1⟩ := @absorbVar_none F _ sv [e] cs h
    obtain ⟨sv', cs', hrest, hb', hfold⟩ := ih sv1 cs1 hb1
    refine ⟨sv', cs', ?_, hb', ?_⟩
    · rw [absorbManyLoopVar]
      simp only [ha, hrest]
    · rw [hfold, absorbVar_toNative ha]
      rfl

/-! ## Wellformedness invariants and bridges -/

@[simp] theorem get_poseidon_config_rate (fp : FieldParams F) :
    (get_poseidon_config fp).rate = 4 := rfl

@[simp] theorem get_poseidon_config_capacity (fp : FieldParams F) :
    (get_poseidon_config fp).capacity = 1 := rfl

theorem absorbElems_wellFormed (sp : PoseidonSponge F) (elems : List F)
    (h : sp.wellFormed) : (absorbElems sp elems).wellFormed := by
  obtain ⟨hr, hm⟩ := h
  exact ⟨by rw [absorbElems_parameters]; exact hr,
    by rw [absorbElems_parameters]; exact absorbElems_cursor_le sp elems hr hm⟩

theorem squeezeFieldElements_wellFormed (sp : PoseidonSponge F) (k : Nat)
    (h : sp.wellFormed) : ((squeezeFieldElements sp k).2).wellFormed := by
  obtain ⟨hr, hm⟩ := h
  exact ⟨by rw [squeezeFieldElements_parameters]; exact hr,
    by rw [squeezeFieldElements_parameters]
       exact squeezeFieldElements_cursor_le sp k hm⟩

theorem foldAbsorb_wellFormed : ∀ (v : List F) (sp : PoseidonSponge F),
    sp.wellFormed →
    ((v.foldl (fun s x => absorbElems s [x]) sp)).wellFormed := by
  intro v
  induction v with
  | nil => intro sp h; exact h
  | cons x xs ih =>
    intro sp h
    exact ih (absorbElems sp [x]) (absorbElems_wellFormed sp [x] h)

theorem new_wellFormed (cfg : PoseidonConfig F) (h : 0 < cfg.rate) :
    (PoseidonSponge.new cfg).wellFormed :=
  ⟨h, by simp [PoseidonSponge.new, DuplexSpongeMode.cursor]⟩

theorem toNative_new (cfg : PoseidonConfig F) :
    (PoseidonSpongeVar.new cfg).toNative = PoseidonSponge.new cfg := by
  show (⟨cfg, (List.replicate (cfg.rate + cfg.capacity)
    (FpVarE.const 0)).map FpVarE.val, .absorbing 0⟩ : PoseidonSponge F) = _
  rw [List.map_replicate]
  rfl

/-- Squeezing one element from a well-formed native sponge succeeds and
returns exactly the head of the length-one output of
`squeeze_field_elements(1)`. -/
theorem squeeze_ok_of_wellFormed (h : PoseidonHash F)
    (hwf : h.sponge.wellFormed) :
    ∃ d h', h.squeeze = .ok (d, h') ∧
      (squeezeFieldElements h.sponge 1).1 = [d] := by
  obtain ⟨hr, hm⟩ := hwf
  have hlen := squeezeFieldElements_one_length h.sponge hr hm
  obtain ⟨d, hd⟩ := List.length_eq_one.mp hlen
  refine ⟨d, { sponge := (squeezeFieldElements h.sponge 1).2 }, ?_, hd⟩
  rw [PoseidonHash.squeeze]
  simp only [hd]

/-- The gadget wrapper squeeze, on success, evaluates to the native squeeze
of the denoted sponge. -/
theorem squeezeVar_ok_of_wellFormed (hv : PoseidonHashVar F)
    {cs : ConstraintSystem F} (hb : cs.budget = none)
    (hwf : hv.sponge.toNative.wellFormed) :
    ∃ x hv' cs' d h',
      hv.squeeze cs = .ok (x, hv') cs' ∧ cs'.budget = none ∧
      PoseidonHash.squeeze { sponge := hv.sponge.toNative } = .ok (d, h') ∧
      x.val = d := by
  obtain ⟨p, cs', hs, hb'⟩ := @squeezeFieldElementsVar_none F _ hv.sponge 1 cs hb
  obtain ⟨e1, e2⟩ := squeezeFieldElementsVar_toNative hs
  obtain ⟨d, h', hsq, hone⟩ := squeeze_ok_of_wellFormed
    { sponge := hv.sponge.toNative } hwf
  have hp1 : p.1.map FpVarE.val = [d] := by rw [e1]; exact hone
  obtain ⟨x, hx⟩ : ∃ x, p.1 = [x] := by
    cases hp : p.1 with
    | nil => rw [hp] at hp1; cases hp1
    | cons a l =>
      cases l with
      | nil => exact ⟨a, rfl⟩
      | cons b l2 => rw [hp] at hp1; cases hp1
  refine ⟨x, { sponge := p.2 }, cs', d, h', ?_, hb', hsq, ?_⟩
  · rw [PoseidonHashVar.squeeze]
    simp only [hs, hx]
  · have : [x].map FpVarE.val = [d] := by rw [← hx]; exact hp1
    simpa using this

/-- Absorbing a list one element at a time is the same as one absorb call on
the whole list (iterated `absorbElems_append`). -/
theorem foldAbsorb_eq_absorbElems : ∀ (v : List F) (sp : PoseidonSponge F),
    sp.wellFormed →
    v.foldl (fun s x => absorbElems s [x]) sp = absorbElems sp v := by
  intro v
  induction v with
  | nil => intro sp _; rw [List.foldl_nil, absorbElems_nil]
  | cons x xs ih =>
    intro sp hwf
    rw [List.foldl_cons, ih (absorbElems sp [x]) (absorbElems_wellFormed sp [x] hwf)]
    exact absorbElems_append sp [x] xs hwf

/-- The full success path of `PoseidonCircuit::generate_constraints`' body on
a non-rejecting constraint system: the witness-allocation phase records
exactly the seeded vector, and the squeezed output evaluates to the digest
the native pipeline produces on the same vector. -/
theorem genBody_none (fp : FieldParams F) (rng : Nat → F) (n : Nat)
    {cs : ConstraintSystem F} (hb : cs.budget = none) :
    ∃ vars cs1 out cs' d h',
      allocWitnesses (randomVector rng n) cs = .ok vars cs1 ∧
      vars.map FpVarE.val = randomVector rng n ∧
      cs1 = { cs with witnessValues := cs.witnessValues ++ randomVector rng n } ∧
      PoseidonCircuit.genBody fp rng n cs = .ok out cs' ∧ cs'.budget = none ∧
      ((PoseidonHash.new fp).absorb_many (randomVector rng n)).squeeze
        = .ok (d, h') ∧
      out.val = d := by
  obtain ⟨vars, cs1, hw, hval, hcs1⟩ :=
    allocWitnesses_none (randomVector rng n) cs hb
  have hb1 : cs1.budget = none := by rw [hcs1]; exact hb
  obtain ⟨sv, cs2, habs, hb2⟩ :=
    @absorbVar_none F _ (PoseidonSpongeVar.new (get_poseidon_config fp))
      vars cs1 hb1
  have hnew_wf : (PoseidonSponge.new (get_poseidon_config fp)).wellFormed :=
    new_wellFormed _ (by rw [get_poseidon_config_rate]; omega)
  have hsvnat : sv.toNative =
      absorbElems (PoseidonSponge.new (get_poseidon_config fp))
        (randomVector rng n) := by
    rw [absorbVar_toNative habs, toNative_new, hval]
  have hwf : sv.toNative.wellFormed := by
    rw [hsvnat]; exact absorbElems_wellFormed _ _ hnew_wf
  obtain ⟨p, cs3, hsq, hb3⟩ := @squeezeFieldElementsVar_none F _ sv 1 cs2 hb2
  obtain ⟨e1, _⟩ := squeezeFieldElementsVar_toNative hsq
  have hhash_sponge :
      ((PoseidonHash.new fp).absorb_many (randomVector rng n)).sponge
        = sv.toNative := by
    show (randomVector rng n).foldl (fun sp elem => absorbElems sp [elem])
      (PoseidonSponge.new (get_poseidon_config fp)) = sv.toNative
    rw [foldAbsorb_eq_absorbElems _ _ hnew_wf, hsvnat]
  obtain ⟨d, h', hsqn, hone⟩ := squeeze_ok_of_wellFormed
    ((PoseidonHash.new fp).absorb_many (randomVector rng n))
    (by rw [hhash_sponge]; exact hwf)
  have hp1 : p.1.map FpVarE.val = [d] := by
    rw [e1, ← hhash_sponge]; exact hone
  obtain ⟨x, hx⟩ : ∃ x, p.1 = [x] := by
    cases hp : p.1 with
    | nil => rw [hp] at hp1; cases hp1
    | cons a l =>
      cases l with
      | nil => exact ⟨a, rfl⟩
      | cons b l2 => rw [hp] at hp1; cases hp1
  have hxv : x.val = d := by
    rw [hx] at hp1
    exact (List.cons.injEq _ _ _ _ ▸ hp1).1
  refine ⟨vars, cs1, x, cs3, d, h', hw, hval, hcs1, ?_, hb3, hsqn, hxv⟩
  rw [PoseidonCircuit.genBody]
  simp only [hw, habs, hsq, hx]

/-- The body of `generate_constraints` never panics: the only index access is
on the result of `squeeze_field_elements(1)`, which has length one whenever
the preceding absorb succeeded. -/
theorem genBody_no_panic (fp : FieldParams F) (rng : Nat → F) (n : Nat)
    (cs : ConstraintSystem F) (m : String) :
    PoseidonCircuit.genBody fp rng n cs ≠ .panicked m := by
  intro h
  rw [PoseidonCircuit.genBody] at h
  cases hw : allocWitnesses (randomVector rng n) cs with
  | err e => simp only [hw] at h; exact PanicRes.noConfusion h
  | ok vars cs1 =>
    simp only [hw] at h
    cases habs : (PoseidonSpongeVar.new (get_poseidon_config fp)).absorb
        vars cs1 with
    | err e => simp only [habs] at h; exact PanicRes.noConfusion h
    | ok sv cs2 =>
      simp only [habs] at h
      cases hsq : squeezeFieldElementsVar sv 1 cs2 with
      | err e => simp only [hsq] at h; exact PanicRes.noConfusion h
      | ok p cs3 =>
        simp only [hsq] at h
        have hwf : sv.toNative.wellFormed := by
          rw [absorbVar_toNative habs, toNative_new]
          exact absorbElems_wellFormed _ _
            (new_wellFormed _ (by rw [get_poseidon_config_rate]; omega))
        obtain ⟨e1, _⟩ := squeezeFieldElementsVar_toNative hsq
        have hlen : p.1.length = 1 := by
          have h1 := squeezeFieldElements_one_length sv.toNative hwf.1 hwf.2
          calc p.1.length = (p.1.map FpVarE.val).length :=
                (List.length_map _ _).symm
            _ = 1 := by rw [e1]; exact h1
        cases hp : p.1 with
        | nil => rw [hp] at hlen; cases hlen
        | cons x l => rw [hp] at h; exact PanicRes.noConfusion h

/-- The absorb loop of the wrapper maps every failure to a panic, so it never
returns a typed error. -/
theorem absorbManyLoopVar_no_err : ∀ (elems : List (FpVarE F))
    (sv : PoseidonSpongeVar F) (cs : ConstraintSystem F) (e : SynthesisError),
    absorbManyLoopVar sv elems cs ≠ .err e := by
  intro elems
  induction elems with
  | nil => intro sv cs e h; exact PanicRes.noConfusion h
  | cons x xs ih =>
    intro sv cs e h
    rw [absorbManyLoopVar] at h
    cases habs : sv.absorb [x] cs with
    | ok sv' cs1 =>
      simp only [habs] at h
      exact ih sv' cs1 e h
    | err e2 => simp only [habs] at h; exact PanicRes.noConfusion h

/-- The state-binding loop of `from_poseidon_hash` unwraps every allocation,
so it never returns a typed error. -/
theorem allocInputsUnwrap_no_err : ∀ (fs : List F) (cs : ConstraintSystem F)
    (e : SynthesisError), allocInputsUnwrap fs cs ≠ .err e := by
  intro fs
  induction fs with
  | nil => intro cs e h; exact PanicRes.noConfusion h
  | cons f fs ih =>
    intro cs e h
    rw [allocInputsUnwrap] at h
    cases halloc : newInputVar f cs with
    | ok v cs1 =>
      simp only [halloc] at h
      cases hrec : allocInputsUnwrap fs cs1 with
      | ok vs cs2 => simp only [hrec] at h; exact PanicRes.noConfusion h
      | err e2 => exact ih cs1 e2 hrec
      | panicked m => simp only [hrec] at h; exact PanicRes.noConfusion h
    | err e2 => simp only [halloc] at h; exact PanicRes.noConfusion h

/-- The `n = 0` body: no allocation is attempted, the absorb of the empty
sequence is the identity, and the squeeze runs entirely on compile-time
constants, so it succeeds on every constraint system (even an exhausted one)
without touching it, and the output evaluates to the native digest of the
empty input. -/
theorem genBody_zero (fp : FieldParams F) (rng : Nat → F)
    (cs : ConstraintSystem F) :
    ∃ out d h', PoseidonCircuit.genBody fp rng 0 cs = .ok out cs ∧
      (PoseidonHash.new fp).squeeze = .ok (d, h') ∧ out.val = d := by
  have hrv : randomVector rng 0 = [] := rfl
  have hconst : allConst (PoseidonSpongeVar.new (get_poseidon_config fp)).state := by
    intro x hx
    exact ⟨0, List.eq_of_mem_replicate hx⟩
  obtain ⟨st', hperm, _⟩ :=
    permuteVar_const (PoseidonSpongeVar.new (get_poseidon_config fp)) cs hconst
  have habs : (PoseidonSpongeVar.new (get_poseidon_config fp)).absorb [] cs
      = .ok (PoseidonSpongeVar.new (get_poseidon_config fp)) cs := by
    rw [PoseidonSpongeVar.absorb]
    rfl
  have hrate : (1 : Nat) ≤ (get_poseidon_config fp).rate := by
    rw [get_poseidon_config_rate]; omega
  have hsi : squeezeInternalVar
      { PoseidonSpongeVar.new (get_poseidon_config fp) with state := st' } 0 1 cs
      = .ok ([st'.getD ((get_poseidon_config fp).capacity + 0 + 0) (.const 0)],
          { PoseidonSpongeVar.new (get_poseidon_config fp) with
              state := st', mode := .squeezing (0 + 1) }) cs := by
    have hcond : 0 + 1 ≤
        ({ PoseidonSpongeVar.new (get_poseidon_config fp) with state := st' }
          : PoseidonSpongeVar F).parameters.rate := by
      show 0 + 1 ≤ (get_poseidon_config fp).rate
      rw [get_poseidon_config_rate]; omega
    rw [squeezeInternalVar, if_pos hcond]
    rfl
  have hsq : squeezeFieldElementsVar
      (PoseidonSpongeVar.new (get_poseidon_config fp)) 1 cs
      = .ok ([st'.getD ((get_poseidon_config fp).capacity + 0 + 0) (.const 0)],
          { PoseidonSpongeVar.new (get_poseidon_config fp) with
              state := st', mode := .squeezing (0 + 1) }) cs := by
    rw [squeezeFieldElementsVar]
    have hm : (PoseidonSpongeVar.new (get_poseidon_config fp)).mode
        = .absorbing 0 := rfl
    simp only [hm, hperm]
    exact hsi
  obtain ⟨e1, _⟩ := squeezeFieldElementsVar_toNative hsq
  obtain ⟨d, h', hsqn, hone⟩ := squeeze_ok_of_wellFormed (PoseidonHash.new fp)
    (new_wellFormed _ (by rw [get_poseidon_config_rate]; omega))
  have hp1 : [st'.getD ((get_poseidon_config fp).capacity + 0 + 0)
      (.const 0)].map FpVarE.val = [d] := by
    rw [e1, toNative_new]
    exact hone
  have hxv : (st'.getD ((get_poseidon_config fp).capacity + 0 + 0)
      (.const 0)).val = d := by
    exact (List.cons.injEq _ _ _ _ ▸ hp1).1
  refine ⟨_, d, h', ?_, hsqn, hxv⟩
  rw [PoseidonCircuit.genBody]
  simp only [hrv, allocWitnesses, habs, hsq]

/-- A run of identically-flagged rounds is a fold over the corresponding
round-constant row indices. -/
theorem applyRoundsFrom_replicate (cfg : PoseidonConfig F) (b : Bool) :
    ∀ (n r : Nat) (st : List F),
    applyRoundsFrom cfg r (List.replicate n b) st
      = (List.range' r n).foldl (roundFn cfg b) st := by
  intro n
  induction n with
  | zero => intro r st; rfl
  | succ n ih =>
    intro r st
    rw [List.replicate_succ, List.range'_succ, applyRoundsFrom, List.foldl_cons]
    exact ih (r + 1) (roundFn cfg b st r)

/-- Splitting a round schedule: the second part starts at a row index
advanced by the length of the first. -/
theorem applyRoundsFrom_append (cfg : PoseidonConfig F) :
    ∀ (bs1 bs2 : List Bool) (r : Nat) (st : List F),
    applyRoundsFrom cfg r (bs1 ++ bs2) st
      = applyRoundsFrom cfg (r + bs1.length) bs2
          (applyRoundsFrom cfg r bs1 st) := by
  intro bs1
  induction bs1 with
  | nil => intro bs2 r st; simp [applyRoundsFrom]
  | cons b bs ih =>
    intro bs2 r st
    rw [List.cons_append, applyRoundsFrom, applyRoundsFrom,
      ih bs2 (r + 1) (roundFn cfg b st r)]
    rw [show r + 1 + bs.length = r + (b :: bs).length by
      simp only [List.length_cons]; omega]

/-- Every state reachable through the public native API satisfies the sponge
invariant. -/
theorem reachableHash_wellFormed {fp : FieldParams F} {h : PoseidonHash F}
    (hr : ReachableHash fp h) : h.sponge.wellFormed := by
  induction hr with
  | new => exact new_wellFormed _ (by rw [get_poseidon_config_rate]; omega)
  | absorb_many h v _ ih =>
    show ((v.foldl (fun sp elem => absorbElems sp [elem]) h.sponge)).wellFormed
    exact foldAbsorb_wellFormed v h.sponge ih
  | squeeze h h' d _ hsq ih =>
    rw [PoseidonHash.squeeze] at hsq
    cases hone : (squeezeFieldElements h.sponge 1).1 with
    | nil =>
      simp only [hone] at hsq
      exact PanicOr.noConfusion hsq
    | cons x l =>
      simp only [hone] at hsq
      cases hsq
      exact squeezeFieldElements_wellFormed h.sponge 1 ih

/-! ## Claims -/

/-- C1: for every finite sequence of field values `v`, squeezing one element
from a native `PoseidonHash` after absorbing `v` yields the same field value
as evaluating, under the satisfying assignment, the symbolic element squeezed
from a `PoseidonHashVar` built over the same configuration after absorbing
the circuit binding of `v`. -/
theorem C1_native_vs_circuit (fp : FieldParams F) (v : List F)
    (vars : List (FpVarE F)) (cs : ConstraintSystem F)
    (hvals : vars.map FpVarE.val = v) (hb : cs.budget = none) :
    ∃ hv1 cs1 x hv2 cs2 d h',
      (PoseidonHashVar.new fp).absorb_many vars cs = .ok hv1 cs1 ∧
      hv1.squeeze cs1 = .ok (x, hv2) cs2 ∧
      ((PoseidonHash.new fp).absorb_many v).squeeze = .ok (d, h') ∧
      x.val = d := by
  obtain ⟨sv', cs1, hloop, hb1, htoN⟩ := absorbManyLoopVar_none vars
    (PoseidonSpongeVar.new (get_poseidon_config fp)) cs hb
  rw [toNative_new, hvals] at htoN
  have hnew_wf : (PoseidonSponge.new (get_poseidon_config fp)).wellFormed :=
    new_wellFormed _ (by rw [get_poseidon_config_rate]; omega)
  have hwf : sv'.toNative.wellFormed := by
    rw [htoN]; exact foldAbsorb_wellFormed v _ hnew_wf
  obtain ⟨x, hv2, cs2, d, h', hsqz, hb2, hsqN, hxd⟩ :=
    squeezeVar_ok_of_wellFormed { sponge := sv' } hb1 hwf
  have habs_eq : (PoseidonHash.new fp).absorb_many v
      = { sponge := sv'.toNative } := by
    rw [PoseidonHash.absorb_many, htoN]
    rfl
  refine ⟨{ sponge := sv' }, cs1, x, hv2, cs2, d, h', ?_, hsqz, ?_, hxd⟩
  · rw [PoseidonHashVar.absorb_many]
    have hsp : (PoseidonHashVar.new fp).sponge
        = PoseidonSpongeVar.new (get_poseidon_config fp) := rfl
    simp only [hsp, hloop]
  · rw [habs_eq]; exact hsqN

/-- Witness for C1 at a concrete input over `ZMod 5`. -/
theorem C1_native_vs_circuit_witness :
    ∃ hv1 cs1 x hv2 cs2 d h',
      (PoseidonHashVar.new fp0).absorb_many [FpVarE.var 1, FpVarE.const 2]
        { inputValues := [], witnessValues := [], budget := none }
        = .ok hv1 cs1 ∧
      hv1.squeeze cs1 = .ok (x, hv2) cs2 ∧
      ((PoseidonHash.new fp0).absorb_many [1, 2]).squeeze = .ok (d, h') ∧
      x.val = d :=
  C1_native_vs_circuit fp0 [1, 2] [FpVarE.var 1, FpVarE.const 2]
    { inputValues := [], witnessValues := [], budget := none }
    (by decide) rfl

/-- C2 (amended): a constraint-system rejection inside the wrapper layer is
never surfaced to the caller as a typed error result — `from_poseidon_hash`
unwraps each allocation and panics on a rejection, and `absorb_many` and
`squeeze` map every sponge failure to a panic, so none of the three ever
returns `.err`; no operation retries (each failure aborts immediately). -/
theorem C2_wrapper_panics_not_typed_error :
    (∀ (native : PoseidonHash F) (cs : ConstraintSystem F),
      cs.budget = some 0 → native.sponge.state ≠ [] →
      PoseidonHashVar.from_poseidon_hash native cs
        = .panicked "called Result::unwrap() on an Err value") ∧
    (∀ (native : PoseidonHash F) (cs : ConstraintSystem F)
      (e : SynthesisError),
      PoseidonHashVar.from_poseidon_hash native cs ≠ .err e) ∧
    (∀ (hv : PoseidonHashVar F) (iter : List (FpVarE F))
      (cs : ConstraintSystem F) (e : SynthesisError),
      hv.absorb_many iter cs ≠ .err e) ∧
    (∀ (hv : PoseidonHashVar F) (cs : ConstraintSystem F)
      (e : SynthesisError), hv.squeeze cs ≠ .err e) := by
  refine ⟨?_, ?_, ?_, ?_⟩
  · intro native cs hbud hne
    rw [PoseidonHashVar.from_poseidon_hash]
    simp only [allocInputsUnwrap_panic native.sponge.state cs hbud hne]
  · intro native cs e h
    rw [PoseidonHashVar.from_poseidon_hash] at h
    cases halloc : allocInputsUnwrap native.sponge.state cs with
    | ok vs cs' => simp only [halloc] at h; exact PanicRes.noConfusion h
    | err e2 => exact allocInputsUnwrap_no_err _ _ e2 halloc
    | panicked m => simp only [halloc] at h; exact PanicRes.noConfusion h
  · intro hv iter cs e h
    rw [PoseidonHashVar.absorb_many] at h
    cases hloop : absorbManyLoopVar hv.sponge iter cs with
    | ok sv cs' => simp only [hloop] at h; exact PanicRes.noConfusion h
    | err e2 => exact absorbManyLoopVar_no_err _ _ _ e2 hloop
    | panicked m => simp only [hloop] at h; exact PanicRes.noConfusion h
  · intro hv cs e h
    rw [PoseidonHashVar.squeeze] at h
    cases hsq : squeezeFieldElementsVar hv.sponge 1 cs with
    | ok p cs1 =>
      simp only [hsq] at h
      cases hp : p.1 with
      | nil => simp only [hp] at h; exact PanicRes.noConfusion h
      | cons x l => simp only [hp] at h; exact PanicRes.noConfusion h
    | err e2 => simp only [hsq] at h; exact PanicRes.noConfusion h

/-- Witness for C2 at a concrete rejecting constraint system over
`ZMod 5`. -/
theorem C2_wrapper_panics_witness :
    PoseidonHashVar.from_poseidon_hash (PoseidonHash.new fp0)
      { inputValues := [3], witnessValues := [], budget := some 0 }
      = .panicked "called Result::unwrap() on an Err value" :=
  C2_wrapper_panics_not_typed_error.1 (PoseidonHash.new fp0)
    { inputValues := [3], witnessValues := [], budget := some 0 }
    rfl (by decide)

/-- Counterexample to C2 as stated: on a constraint system that rejects the
allocation, `from_poseidon_hash` panics instead of returning the condition
as a typed error result. -/
theorem C2_counterexample :
    PoseidonHashVar.from_poseidon_hash (PoseidonHash.new fp0)
      { inputValues := [], witnessValues := [], budget := some 0 }
      = .panicked "called Result::unwrap() on an Err value" := by
  decide

/-- C3 (amended): the parameter generator takes no caller arguments at all —
for every field-parameter bundle it returns the fixed configuration with
rate 4, capacity 1, 8 full rounds, 60 partial rounds, α = 5, and the
`(ark, mds)` pair drawn from
`find_poseidon_ark_and_mds(MODULUS_BIT_SIZE, 4, 8, 60, 0)`. -/
theorem C3_generator_contract (fp : FieldParams F) :
    (get_poseidon_config fp).rate = 4 ∧
    (get_poseidon_config fp).capacity = 1 ∧
    (get_poseidon_config fp).full_rounds = 8 ∧
    (get_poseidon_config fp).partial_rounds = 60 ∧
    (get_poseidon_config fp).alpha = 5 ∧
    (get_poseidon_config fp).ark
      = (fp.findArkAndMds fp.modulusBitSize 4 8 60 0).1 ∧
    (get_poseidon_config fp).mds
      = (fp.findArkAndMds fp.modulusBitSize 4 8 60 0).2 :=
  ⟨rfl, rfl, rfl, rfl, rfl, rfl, rfl⟩

/-- Counterexample to C3 as stated: the rate is not caller-supplied — no
invocation of the generator can produce a configuration of rate 2. -/
theorem C3_counterexample :
    ¬ ∀ r : Nat, ∃ fp : FieldParams (ZMod 5),
      (get_poseidon_config fp).rate = r := by
  intro hcl
  obtain ⟨fp, hfp⟩ := hcl 2
  rw [get_poseidon_config_rate] at hfp
  exact absurd hfp (by decide)

/-- C4 (amended): the permutation applies `full_rounds / 2` full rounds,
then all `partial_rounds` partial rounds, then the remaining
`full_rounds - full_rounds / 2` full rounds — a full/partial/full sandwich,
not all full rounds first — with round-constant rows consumed in order, one
per round, the row index advancing by one across the whole schedule. -/
theorem C4_round_schedule (cfg : PoseidonConfig F) (st : List F) :
    permuteState cfg st = applyRoundsFrom cfg 0
      (List.replicate (cfg.full_rounds / 2) true
        ++ List.replicate cfg.partial_rounds false
        ++ List.replicate (cfg.full_rounds - cfg.full_rounds / 2) true) st := by
  rw [applyRoundsFrom_append, applyRoundsFrom_append]
  rw [applyRoundsFrom_replicate, applyRoundsFrom_replicate,
    applyRoundsFrom_replicate]
  rw [permuteState, List.range_eq_range']
  simp only [List.length_replicate, List.length_append, Nat.zero_add]

set_option maxRecDepth 40000 in
/-- Counterexample to C4 as stated: at the configuration the program derives
over `ZMod 7`, running all full rounds first and then the partial rounds (the
spec ordering) gives a different state than the program's permutation. -/
theorem C4_counterexample :
    permuteState cfgC4 [0, 1, 2, 3, 4]
      ≠ permuteSpecOrder cfgC4 [0, 1, 2, 3, 4] := by
  decide

/-- C5: `generate_constraints` never panics, a witness-allocation rejection
is propagated to the caller as the underlying `SynthesisError`, and a sponge
absorb failure after a successful allocation phase is propagated
unchanged. -/
theorem C5_generate_constraints_errors :
    (∀ (fp : FieldParams F) (rng : Nat → F) (c : PoseidonCircuit)
      (cs : ConstraintSystem F) (m : String),
      PoseidonCircuit.generate_constraints fp rng c cs ≠ .panicked m) ∧
    (∀ (fp : FieldParams F) (rng : Nat → F) (c : PoseidonCircuit)
      (cs : ConstraintSystem F) (b : Nat), cs.budget = some b → b < c.n →
      PoseidonCircuit.generate_constraints fp rng c cs
        = .err .allocationRejected) ∧
    (∀ (fp : FieldParams F) (rng : Nat → F) (c : PoseidonCircuit)
      (cs : ConstraintSystem F) (vars : List (FpVarE F))
      (cs1 : ConstraintSystem F) (e : SynthesisError),
      allocWitnesses (randomVector rng c.n) cs = .ok vars cs1 →
      (PoseidonSpongeVar.new (get_poseidon_config fp)).absorb vars cs1
        = .err e →
      PoseidonCircuit.generate_constraints fp rng c cs = .err e) := by
  refine ⟨?_, ?_, ?_⟩
  · intro fp rng c cs m h
    rw [PoseidonCircuit.generate_constraints] at h
    cases hg : PoseidonCircuit.genBody fp rng c.n cs with
    | ok a cs' => simp only [hg] at h; exact PanicRes.noConfusion h
    | err e => simp only [hg] at h; exact PanicRes.noConfusion h
    | panicked m2 => exact genBody_no_panic fp rng c.n cs m2 hg
  · intro fp rng c cs b hbud hlt
    have hfail : allocWitnesses (randomVector rng c.n) cs
        = .err .allocationRejected := by
      refine allocWitnesses_fail (randomVector rng c.n) cs b hbud ?_
      rw [randomVector, List.length_map, List.length_range]
      exact hlt
    rw [PoseidonCircuit.generate_constraints, PoseidonCircuit.genBody]
    simp only [hfail]
  · intro fp rng c cs vars cs1 e hw habs
    rw [PoseidonCircuit.generate_constraints, PoseidonCircuit.genBody]
    simp only [hw, habs]

/-- Witness for C5 at a concrete rejecting constraint system over
`ZMod 5`. -/
theorem C5_generate_constraints_errors_witness :
    PoseidonCircuit.generate_constraints fp0 rng0 ⟨3⟩
      { inputValues := [], witnessValues := [], budget := some 1 }
      = .err .allocationRejected :=
  C5_generate_constraints_errors.2.1 fp0 rng0 ⟨3⟩
    { inputValues := [], witnessValues := [], budget := some 1 }
    1 rfl (by decide)

/-- C6: on a non-rejecting constraint system, the statement allocates exactly
the `n` seeded field values as private witnesses, synthesis succeeds, and the
squeezed output evaluates to the digest the native sponge pipeline produces
on the same `n` values. -/
theorem C6_witness_count_and_digest (fp : FieldParams F) (rng : Nat → F)
    (n : Nat) (cs : ConstraintSystem F) (hb : cs.budget = none) :
    ∃ vars cs1 out cs' d h',
      allocWitnesses (randomVector rng n) cs = .ok vars cs1 ∧
      vars.length = n ∧
      cs1.witnessValues = cs.witnessValues ++ randomVector rng n ∧
      PoseidonCircuit.genBody fp rng n cs = .ok out cs' ∧
      PoseidonCircuit.generate_constraints fp rng ⟨n⟩ cs = .ok () cs' ∧
      ((PoseidonHash.new fp).absorb_many (randomVector rng n)).squeeze
        = .ok (d, h') ∧
      out.val = d := by
  obtain ⟨vars, cs1, out, cs', d, h', hw, hval, hcs1, hbody, hb', hsq, hout⟩ :=
    genBody_none fp rng n hb
  refine ⟨vars, cs1, out, cs', d, h', hw, ?_, ?_, hbody, ?_, hsq, hout⟩
  · have hlen := congrArg List.length hval
    rw [List.length_map] at hlen
    rw [hlen, randomVector, List.length_map, List.length_range]
  · rw [hcs1]
  · rw [PoseidonCircuit.generate_constraints]
    simp only [hbody]

/-- Witness for C6 at a concrete input over `ZMod 5`. -/
theorem C6_witness_count_and_digest_witness :
    ∃ vars cs1 out cs' d h',
      allocWitnesses (randomVector rng0 2)
        { inputValues := [], witnessValues := [], budget := none }
        = .ok vars cs1 ∧
      vars.length = 2 ∧
      cs1.witnessValues =
        ({ inputValues := [], witnessValues := [], budget := none }
          : ConstraintSystem (ZMod 5)).witnessValues ++ randomVector rng0 2 ∧
      PoseidonCircuit.genBody fp0 rng0 2
        { inputValues := [], witnessValues := [], budget := none }
        = .ok out cs' ∧
      PoseidonCircuit.generate_constraints fp0 rng0 ⟨2⟩
        { inputValues := [], witnessValues := [], budget := none }
        = .ok () cs' ∧
      ((PoseidonHash.new fp0).absorb_many (randomVector rng0 2)).squeeze
        = .ok (d, h') ∧
      out.val = d :=
  C6_witness_count_and_digest fp0 rng0 2
    { inputValues := [], witnessValues := [], budget := none } rfl

/-- C7: on a well-formed sponge state, absorbing `[a, b, c]` in one call
equals absorbing `[a]` then `[b, c]`; in general repeated absorb calls equal
a single call on the concatenation, both at the raw sponge level and through
`PoseidonHash::absorb_many`. -/
theorem C7_absorb_associative (sp : PoseidonSponge F) (a b c : F)
    (xs ys : List F) (h0 : PoseidonHash F) (hwf : sp.wellFormed) :
    absorbElems (absorbElems sp [a]) [b, c] = absorbElems sp [a, b, c] ∧
    absorbElems (absorbElems sp xs) ys = absorbElems sp (xs ++ ys) ∧
    (h0.absorb_many xs).absorb_many ys = h0.absorb_many (xs ++ ys) := by
  refine ⟨?_, absorbElems_append sp xs ys hwf, ?_⟩
  · simpa using absorbElems_append sp [a] [b, c] hwf
  · rw [PoseidonHash.absorb_many, PoseidonHash.absorb_many,
      PoseidonHash.absorb_many, List.foldl_append]

/-- Witness for C7 at a concrete sponge over `ZMod 5` (the `[1]` then
`[2, 3, 4]` split crosses a rate-block boundary through a permutation). -/
theorem C7_absorb_associative_witness :
    absorbElems (absorbElems (PoseidonSponge.new (get_poseidon_config fp0)) [1])
        [2, 3] = absorbElems (PoseidonSponge.new (get_poseidon_config fp0))
          [1, 2, 3] ∧
    absorbElems (absorbElems (PoseidonSponge.new (get_poseidon_config fp0)) [1])
        [2, 3, 4] = absorbElems (PoseidonSponge.new (get_poseidon_config fp0))
          ([1] ++ [2, 3, 4]) ∧
    ((PoseidonHash.new fp0).absorb_many [1]).absorb_many [2, 3, 4]
      = (PoseidonHash.new fp0).absorb_many ([1] ++ [2, 3, 4]) :=
  C7_absorb_associative (PoseidonSponge.new (get_poseidon_config fp0)) 1 2 3
    [1] [2, 3, 4] (PoseidonHash.new fp0) (by decide)

/-- C8: the hashing statement with `n = 0` synthesizes successfully on every
constraint system (no allocation is attempted): the absorb of the empty
witness sequence succeeds as the identity, the squeeze produces one element
from the permuted initial all-zero state, and the output evaluates to the
digest the native sponge squeezes from its fresh state. -/
theorem C8_zero_synthesizes (fp : FieldParams F) (rng : Nat → F)
    (cs : ConstraintSystem F) :
    ∃ out d h',
      PoseidonCircuit.generate_constraints fp rng ⟨0⟩ cs = .ok () cs ∧
      PoseidonCircuit.genBody fp rng 0 cs = .ok out cs ∧
      (PoseidonHash.new fp).squeeze = .ok (d, h') ∧
      out.val = d := by
  obtain ⟨out, d, h', hbody, hsq, hval⟩ := genBody_zero fp rng cs
  refine ⟨out, d, h', ?_, hbody, hsq, hval⟩
  rw [PoseidonCircuit.generate_constraints]
  simp only [hbody]

/-- C9: the circuit sponge built by `from_poseidon_hash` binds each native
state element, in order, as an externally-supplied input value, carries the
same mode and parameters, and its squeeze evaluates to the value the native
sponge squeezes. -/
theorem C9_from_native_binding (h : PoseidonHash F)
    (cs : ConstraintSystem F) (hb : cs.budget = none)
    (hwf : h.sponge.wellFormed) :
    ∃ hv cs1,
      PoseidonHashVar.from_poseidon_hash h cs = .ok hv cs1 ∧
      hv.sponge.toNative = h.sponge ∧
      hv.sponge.parameters = h.sponge.parameters ∧
      hv.sponge.mode = h.sponge.mode ∧
      hv.sponge.state.map FpVarE.val = h.sponge.state ∧
      cs1.inputValues = cs.inputValues ++ h.sponge.state ∧
      ∃ x hv2 cs2 d h2,
        hv.squeeze cs1 = .ok (x, hv2) cs2 ∧
        h.squeeze = .ok (d, h2) ∧ x.val = d := by
  obtain ⟨vars, cs1, halloc, hvals, hcs1⟩ :=
    allocInputsUnwrap_none h.sponge.state cs hb
  have hb1 : cs1.budget = none := by rw [hcs1]; exact hb
  have htoN : (⟨h.sponge.parameters, vars, h.sponge.mode⟩
      : PoseidonSpongeVar F).toNative = h.sponge := by
    show (⟨h.sponge.parameters, vars.map FpVarE.val, h.sponge.mode⟩
      : PoseidonSponge F) = h.sponge
    rw [hvals]
  obtain ⟨x, hv2, cs2, d, h2, hsqz, hb2, hsqN, hxd⟩ :=
    squeezeVar_ok_of_wellFormed ⟨⟨h.sponge.parameters, vars, h.sponge.mode⟩⟩
      hb1 (by rw [show ((⟨⟨h.sponge.parameters, vars, h.sponge.mode⟩⟩
        : PoseidonHashVar F)).sponge.toNative = h.sponge from htoN]
              exact hwf)
  have hkey : ({ sponge := ((⟨⟨h.sponge.parameters, vars, h.sponge.mode⟩⟩
      : PoseidonHashVar F)).sponge.toNative } : PoseidonHash F) = h := by
    rw [show ((⟨⟨h.sponge.parameters, vars, h.sponge.mode⟩⟩
      : PoseidonHashVar F)).sponge.toNative = h.sponge from htoN]
  refine ⟨⟨⟨h.sponge.parameters, vars, h.sponge.mode⟩⟩, cs1, ?_, htoN, rfl,
    rfl, hvals, ?_, x, hv2, cs2, d, h2, hsqz, ?_, hxd⟩
  · rw [PoseidonHashVar.from_poseidon_hash]
    simp only [halloc]
  · rw [hcs1]
  · rw [← hkey]; exact hsqN

/-- Witness for C9 at a concrete native sponge over `ZMod 5`. -/
theorem C9_from_native_binding_witness :
    ∃ hv cs1,
      PoseidonHashVar.from_poseidon_hash (PoseidonHash.new fp0)
        { inputValues := [], witnessValues := [], budget := none }
        = .ok hv cs1 ∧
      hv.sponge.toNative = (PoseidonHash.new fp0).sponge ∧
      hv.sponge.parameters = (PoseidonHash.new fp0).sponge.parameters ∧
      hv.sponge.mode = (PoseidonHash.new fp0).sponge.mode ∧
      hv.sponge.state.map FpVarE.val = (PoseidonHash.new fp0).sponge.state ∧
      cs1.inputValues =
        ({ inputValues := [], witnessValues := [], budget := none }
          : ConstraintSystem (ZMod 5)).inputValues
          ++ (PoseidonHash.new fp0).sponge.state ∧
      ∃ x hv2 cs2 d h2,
        hv.squeeze cs1 = .ok (x, hv2) cs2 ∧
        (PoseidonHash.new fp0).squeeze = .ok (d, h2) ∧ x.val = d :=
  C9_from_native_binding (PoseidonHash.new fp0)
    { inputValues := [], witnessValues := [], budget := none }
    rfl (by decide)

/-- C10: for every native hash state reachable through the public API,
`squeeze_field_elements(1)` returns a vector of length exactly 1, so the
`[0]` access never panics and `squeeze` always returns one field element. -/
theorem C10_squeeze_total (fp : FieldParams F) (h : PoseidonHash F)
    (hr : ReachableHash fp h) :
    (squeezeFieldElements h.sponge 1).1.length = 1 ∧
    (∃ d h', h.squeeze = .ok (d, h')) ∧
    ∀ m, h.squeeze ≠ .panicked m := by
  have hwf := reachableHash_wellFormed hr
  have hlen := squeezeFieldElements_one_length h.sponge hwf.1 hwf.2
  obtain ⟨d, h', hsq, _⟩ := squeeze_ok_of_wellFormed h hwf
  refine ⟨hlen, ⟨d, h', hsq⟩, ?_⟩
  intro m hm
  rw [hsq] at hm
  exact PanicOr.noConfusion hm

/-- Witness for C10 at a concrete reachable state over `ZMod 5`. -/
theorem C10_squeeze_total_witness :
    (squeezeFieldElements (PoseidonHash.new fp0).sponge 1).1.length = 1 ∧
    (∃ d h', (PoseidonHash.new fp0).squeeze = .ok (d, h')) ∧
    ∀ m, (PoseidonHash.new fp0).squeeze ≠ .panicked m :=
  C10_squeeze_total fp0 (PoseidonHash.new fp0) ReachableHash.new

end ZkReport
